import Mathlib

/-!
# Verification of `workshop_downloader.py`

A shallow embedding, in Lean 4, of the core of the single-file Python
program `workshop_downloader.py` (Steam-workshop resolution cascade and
concurrent download orchestrator), together with theorems settling the
frozen specification claims about it.

Conventions of the embedding:

* Python strings are modelled as `List Char`; `String` literals are turned
  into character lists via `String.data`.
* Pure Python functions become Lean functions with the same names
  (`clean_keyword`, `normalize_exact_text`, `parse_direct_url`, ...).
* The regular-expression searches of the source are embedded as explicit
  deterministic scanners that reproduce `re.search` semantics (leftmost
  match; lazy/greedy quantifier resolution) for the concrete patterns the
  source uses.
* Network calls and the wall clock are modelled as explicit environment
  parameters (`TaskEnv`, clock functions); exceptions become
  `Except String` values carrying the exception's message (`str(e)`).
* Stateful orchestration (`run_one_task`, `run_batch`) becomes explicit
  state passing; an instrumentation trace (`TaskTrace`) records how often
  each external endpoint was invoked, which is observable in Python but
  would otherwise be erased by the functional embedding.
-/

namespace Workshop

/-! ## Character/string helpers (Python `str` operations, ASCII fragment)

`isPySpace` models Python's `\s` / `str.strip` whitespace class restricted
to its ASCII members; the documents and keywords the claims quantify over
are covered by this fragment. `pyLowerChar` models `str.lower` on ASCII
letters (identity elsewhere). -/

theorem dropWhile_length_le (p : α → Bool) (l : List α) :
    (l.dropWhile p).length ≤ l.length := by
  induction l with
  | nil => simp [List.dropWhile]
  | cons a t ih =>
    simp only [List.dropWhile]
    split
    · exact Nat.le_succ_of_le ih
    · exact Nat.le_refl _

def isPySpace (c : Char) : Bool :=
  c = ' ' || c = '\t' || c = '\n' || c = '\r' || c = '\x0b' || c = '\x0c'

def pyLowerChar (c : Char) : Char := c.toLower

def pyLower (s : List Char) : List Char := s.map pyLowerChar

/-- Python `str.strip()`: drop leading and trailing whitespace. -/
def pyStrip (s : List Char) : List Char :=
  ((s.dropWhile isPySpace).reverse.dropWhile isPySpace).reverse

/-- Case-insensitive "starts with": compares after `pyLowerChar` on both
sides (the source compiles its URL patterns with `re.I`). -/
def ciStartsWith : List Char → List Char → Bool
  | [], _ => true
  | _ :: _, [] => false
  | p :: ps, c :: cs => (pyLowerChar c = pyLowerChar p) && ciStartsWith ps cs

/-- `re.sub(r"C+", rep, value)` for a character class `C`: each maximal
run of class characters becomes the single character `rep`. The flag
says whether we are inside a run whose replacement was already emitted.
Used for `\s+ → " "` and for `safe_filename`'s `[\\/:*?"<>|]+ → "_"`. -/
def collapseRunsAux (cls : Char → Bool) (rep : Char) : Bool → List Char → List Char
  | _, [] => []
  | inRun, c :: cs =>
    if cls c then
      if inRun then collapseRunsAux cls rep true cs
      else rep :: collapseRunsAux cls rep true cs
    else c :: collapseRunsAux cls rep false cs

/-- `re.sub(r"\s+", " ", value)`: collapse each maximal whitespace run to a
single space. -/
def collapseWs (s : List Char) : List Char := collapseRunsAux isPySpace ' ' false s

/-! ## `html.unescape` (Python standard library)

Modelled restricted to the entity references `&amp; &lt; &gt; &quot;
&nbsp; &#39; &#34;`; text containing no `&` is returned unchanged,
matching the stdlib behaviour on this entity fragment (`&nbsp;` decodes
to U+00A0 as in CPython). -/

def htmlUnescape : List Char → List Char
  | [] => []
  | '&' :: 'a' :: 'm' :: 'p' :: ';' :: rest => '&' :: htmlUnescape rest
  | '&' :: 'l' :: 't' :: ';' :: rest => '<' :: htmlUnescape rest
  | '&' :: 'g' :: 't' :: ';' :: rest => '>' :: htmlUnescape rest
  | '&' :: 'q' :: 'u' :: 'o' :: 't' :: ';' :: rest => '"' :: htmlUnescape rest
  | '&' :: 'n' :: 'b' :: 's' :: 'p' :: ';' :: rest => Char.ofNat 160 :: htmlUnescape rest
  | '&' :: '#' :: '3' :: '9' :: ';' :: rest => '\'' :: htmlUnescape rest
  | '&' :: '#' :: '3' :: '4' :: ';' :: rest => '"' :: htmlUnescape rest
  | c :: rest => c :: htmlUnescape rest

/-! ## Keyword cleaning and exact-match normalisation

Source lines 272–281:
```python
def clean_keyword(text: str):
    value = (text or "").strip()
    value = re.sub(r"（[^）]*）", "", value).strip()
    return value

def normalize_exact_text(text: str):
    value = html.unescape((text or "").strip().lower())
    value = re.sub(r"\s+", " ", value)
    return value
```
Note the parenthesis characters in `clean_keyword`'s pattern are the
fullwidth (CJK) ones U+FF08/U+FF09, not ASCII `(`/`)`. -/

/-- The character class `[^）]` of `clean_keyword`'s pattern. -/
def notCloseFw (d : Char) : Bool := d ≠ '）'

/-- Helper for `stripFullwidthParens`: with the flag set we are inside a
matched `（…）` group and delete characters up to and including the
closing `）`. A `（` opens a group only when a closing `）` occurs later
(otherwise the regex `（[^）]*）` has no match starting there). -/
def stripFwAux : Bool → List Char → List Char
  | _, [] => []
  | true, d :: ds => if d = '）' then stripFwAux false ds else stripFwAux true ds
  | false, c :: cs =>
    if c = '（' && cs.contains '）' then stripFwAux true cs
    else c :: stripFwAux false cs

/-- `re.sub(r"（[^）]*）", "", value)`: delete every non-overlapping
leftmost occurrence of a fullwidth-parenthesised group. -/
def stripFullwidthParens (s : List Char) : List Char := stripFwAux false s

def clean_keyword (text : List Char) : List Char :=
  pyStrip (stripFullwidthParens (pyStrip text))

def normalize_exact_text (text : List Char) : List Char :=
  collapseWs (htmlUnescape (pyLower (pyStrip text)))


/-! ## Catalog search results and exact-match selection

Source lines 284–317 (`find_catalog_results`, `find_exact_catalog_result`).
The HTTP fetch and result-scraping regex of `find_catalog_results` are an
environment interaction; the embedding takes the scraped result list as
input and models the pure selection logic of `find_exact_catalog_result`
exactly. -/

structure CatalogRow where
  ArchiveId : List Char
  Title : List Char
  ModsLink : List Char
  SearchUrl : List Char
deriving DecidableEq

/-- The selection logic of `find_exact_catalog_result` (lines 308–317)
applied to the list scraped by `find_catalog_results`:

```python
if not results: return None
key = normalize_exact_text(search_text)
for row in results:
    if normalize_exact_text(row["Title"]) == key: return row
return None
``` -/
def find_exact_catalog_result (results : List CatalogRow) (search_text : List Char) :
    Option CatalogRow :=
  if results.isEmpty then none
  else
    let key := normalize_exact_text search_text
    results.find? (fun row => normalize_exact_text row.Title = key)

/-- `find_catalog_result_by_workshop_id` (lines 320–324): first scraped
row, if any. -/
def find_catalog_result_by_workshop_id (results : List CatalogRow) : Option CatalogRow :=
  if results.isEmpty then none else results.head?

/-! ## Direct-URL extraction (Extractor "Rule A")

Source lines 327–356 (`normalize_direct_url`, `first_match`,
`parse_direct_url`). The five regular expressions of `parse_direct_url`
are embedded as deterministic scanners reproducing `re.search` with flags
`re.I | re.S`: leftmost match wins, lazy/greedy quantifiers resolved as
CPython's engine does on these patterns. -/

/-- Character class `[^Q\s]` for a quote character `Q`. -/
def notQws (q : Char) (c : Char) : Bool := c ≠ q && !isPySpace c

/-- Character class `[^'"\s]` (redirect pattern). -/
def notQQws (c : Char) : Bool := c ≠ '\'' && c ≠ '"' && !isPySpace c

/-- `(?:https?:)?//` at the head of `s`: returns the consumed prefix (kept
in original case, as `re` group 1 does) and the remainder. -/
def parseScheme (s : List Char) : Option (List Char × List Char) :=
  if ciStartsWith "https://".data s then some (s.take 8, s.drop 8)
  else if ciStartsWith "http://".data s then some (s.take 7, s.drop 7)
  else if s.take 2 = ['/', '/'] then some (s.take 2, s.drop 2)
  else none

/-- Tail of the gateway pattern at the current position:
`/cgi-bin/dl?\.cgi/[^Q\s]+Q` (the two `dl?` alternatives are mutually
exclusive on any text). Returns the matched characters without the
closing quote. -/
def tryGatewayTail (q : Char) (rest : List Char) : Option (List Char) :=
  let finish : List Char → List Char → Option (List Char) := fun gw after =>
    let b := after.takeWhile (notQws q)
    let rest2 := after.dropWhile (notQws q)
    if b.isEmpty then none
    else
      match rest2 with
      | c :: _ => if c = q then some (gw ++ b) else none
      | [] => none
  if ciStartsWith "/cgi-bin/dl.cgi/".data rest then finish (rest.take 16) (rest.drop 16)
  else if ciStartsWith "/cgi-bin/d.cgi/".data rest then finish (rest.take 15) (rest.drop 15)
  else none

/-- Lazy scan for `[^Q\s]*?` before the gateway tail: try the gateway at
the current position first (fewest characters consumed), else consume one
allowed character and continue — exactly the backtracking order of a lazy
quantifier. -/
def gatewayScan (q : Char) (pre : List Char) (acc : List Char) : List Char → Option (List Char)
  | [] => none
  | c :: cs =>
    match tryGatewayTail q (c :: cs) with
    | some grp => some (pre ++ acc.reverse ++ grp)
    | none => if notQws q c then gatewayScan q pre (c :: acc) cs else none

/-- Pattern (i)/(ii) of `parse_direct_url` at one position:
`href=Q((?:https?:)?//[^Q\s]*?/cgi-bin/dl?\.cgi/[^Q\s]+)Q`. -/
def matchGatewayAt (q : Char) (s : List Char) : Option (List Char) :=
  if ciStartsWith ("href=".data ++ [q]) s then
    match parseScheme (s.drop 6) with
    | none => none
    | some (pre, rest) => gatewayScan q pre [] rest
  else none

/-- Greedy split for `[^Q\s]+\.zip(?!\.html)(?:\?[^Q\s]*)?` inside the
quoted run: the engine prefers the longest body before `.zip`, so the
deeper recursive alternative is tried first. `following` is the text
after the run (it starts with the closing quote), against which the
`(?!\.html)` lookahead is evaluated. -/
def zipSplit (acc : List Char) (rem : List Char) (following : List Char) : Option (List Char) :=
  match rem with
  | [] => none
  | r :: rs =>
    match zipSplit (r :: acc) rs following with
    | some grp => some grp
    | none =>
      if acc.isEmpty then none
      else if ciStartsWith ".zip".data rem then
        let tl := rem.drop 4
        if ciStartsWith ".html".data (tl ++ following) then none
        else if tl.isEmpty || tl.headD ' ' = '?' then some (acc.reverse ++ rem)
        else none
      else none

/-- Pattern (iii)/(iv) of `parse_direct_url` at one position:
`href=Q((?:https?:)?//[^Q\s]+\.zip(?!\.html)(?:\?[^Q\s]*)?)Q`. The match
must extend to the closing quote, so the quoted run is split as
body + `.zip` + (empty or `?query`). -/
def matchZipAt (q : Char) (s : List Char) : Option (List Char) :=
  if ciStartsWith ("href=".data ++ [q]) s then
    match parseScheme (s.drop 6) with
    | none => none
    | some (pre, rest) =>
      let run := rest.takeWhile (notQws q)
      let after := rest.dropWhile (notQws q)
      match after with
      | c :: _ =>
        if c = q then
          match zipSplit [] run after with
          | some grp => some (pre ++ grp)
          | none => none
        else none
      | [] => none
  else none

/-- Pattern (v) of `parse_direct_url` at one position:
`(?:location\.href|window\.open)\s*\(\s*['"]((?:https?:)?//[^'"\s]+)['"]\s*\)`. -/
def matchRedirectAt (s : List Char) : Option (List Char) :=
  let afterName : Option (List Char) :=
    if ciStartsWith "location.href".data s then some (s.drop 13)
    else if ciStartsWith "window.open".data s then some (s.drop 11)
    else none
  match afterName with
  | none => none
  | some r1 =>
    match r1.dropWhile isPySpace with
    | '(' :: r3 =>
      match r3.dropWhile isPySpace with
      | qc :: r5 =>
        if qc = '\'' || qc = '"' then
          match parseScheme r5 with
          | none => none
          | some (pre, rest) =>
            let run := rest.takeWhile notQQws
            let after := rest.dropWhile notQQws
            if run.isEmpty then none
            else
              match after with
              | c2 :: r6 =>
                if c2 = '\'' || c2 = '"' then
                  match r6.dropWhile isPySpace with
                  | ')' :: _ => some (pre ++ run)
                  | _ => none
                else none
              | [] => none
        else none
      | [] => none
    | _ => none

/-- `re.search`: scan positions left to right, return the first position
where the pattern matches. -/
def reSearch (f : List Char → Option (List Char)) : List Char → Option (List Char)
  | [] => f []
  | c :: cs =>
    match f (c :: cs) with
    | some r => some r
    | none => reSearch f cs

/-- `first_match(text, patterns)` (lines 337–342): first pattern in list
order whose search over the whole text succeeds. -/
def first_match (text : List Char) : List (List Char → Option (List Char)) → Option (List Char)
  | [] => none
  | p :: ps =>
    match reSearch p text with
    | some r => some r
    | none => first_match text ps

/-- The five patterns of `parse_direct_url` (lines 345–356), in source
order: gateway (double then single quoted), archive-extension (double
then single quoted), client-side redirect. -/
def directUrlPatterns : List (List Char → Option (List Char)) :=
  [matchGatewayAt '"', matchGatewayAt '\'', matchZipAt '"', matchZipAt '\'', matchRedirectAt]

/-- `re.search(r"https?://modsbase\.com/.+\.zip\.html", url, re.I)` helper:
after `modsbase.com/` there must be at least one non-newline character
followed by `.zip.html` (case-insensitively). -/
def zipHtmlScan : List Char → Bool
  | [] => false
  | d :: ds => ciStartsWith ".zip.html".data (d :: ds) || (d ≠ '\n' && zipHtmlScan ds)

/-- `.+\.zip\.html` (with `re.I` but no `re.S`, so `.` excludes newline). -/
def zipHtmlTail : List Char → Bool
  | [] => false
  | c :: rest => c ≠ '\n' && zipHtmlScan rest

/-- One position of the modsbase confirmation-page test. -/
def modsbaseAt (s : List Char) : Bool :=
  (ciStartsWith "http://modsbase.com/".data s && zipHtmlTail (s.drop 20)) ||
    (ciStartsWith "https://modsbase.com/".data s && zipHtmlTail (s.drop 21))

/-- Whether `re.search(r"https?://modsbase\.com/.+\.zip\.html", url, re.I)`
finds a match anywhere in `url`. -/
def containsModsbaseZipHtml : List Char → Bool
  | [] => false
  | c :: cs => modsbaseAt (c :: cs) || containsModsbaseZipHtml cs

/-- `normalize_direct_url` (lines 327–334):

```python
if not url: return None
if url.startswith("//"): url = "https:" + url
if re.search(r"https?://modsbase\.com/.+\.zip\.html", url, re.I): return None
return url
``` -/
def normalize_direct_url (url : Option (List Char)) : Option (List Char) :=
  match url with
  | none => none
  | some u =>
    if u.isEmpty then none
    else
      let u2 := if u.take 2 = ['/', '/'] then "https:".data ++ u else u
      if containsModsbaseZipHtml u2 then none else some u2

/-- `parse_direct_url` (lines 345–356). -/
def parse_direct_url (htmlText : List Char) : Option (List Char) :=
  normalize_direct_url (first_match htmlText directUrlPatterns)

/-! ## Stream downloader (`download_file_with_progress`, lines 512–618)

The byte stream is modelled as the list of chunk sizes successive
`resp.read(chunk_size)` calls return (`0` encodes the empty read that
ends the loop; trailing list end is end-of-stream as well). The wall
clock is a function from call index to time: `time.time()` is called
once at the start (index 0), once per consumed chunk, and once after the
loop. Each emitted progress sample is recorded together with the `now`
value current at its emission; the second component of the result pairs
the final byte count with the next clock index. File writes are faithful:
every consumed chunk is appended to the (truncated, mode `"wb"`) file, so
bytes on disk equal the returned byte count. -/

/-! ### Kernel-computable rational arithmetic

Batteries marks `Rat.add`, `Rat.sub`, `Rat.mul`, `Rat.div`
`@[irreducible]`, which blocks kernel evaluation (`decide`) of any model
that uses them. The wrappers below compute through `Rat.divInt` (which
does evaluate) and are proved equal to the standard field operations of
`ℚ`, so theorems can be read and proved against ordinary rational
arithmetic while concrete runs of the model still evaluate. -/

def qadd (a b : ℚ) : ℚ := Rat.divInt (a.num * b.den + a.den * b.num) (a.den * b.den)

def qsub (a b : ℚ) : ℚ := Rat.divInt (a.num * b.den - b.num * a.den) (a.den * b.den)

def qmul (a b : ℚ) : ℚ := Rat.divInt (a.num * b.num) (a.den * b.den)

def qdiv (a b : ℚ) : ℚ := Rat.divInt (a.num * b.den) (a.den * b.num)

theorem qadd_eq (a b : ℚ) : qadd a b = a + b := (Rat.add_num_den a b).symm

theorem qsub_eq (a b : ℚ) : qsub a b = a - b := by
  conv_rhs => rw [← Rat.num_divInt_den a, ← Rat.num_divInt_den b]
  rw [Rat.divInt_sub_divInt _ _ (Int.natCast_ne_zero.mpr a.den_nz)
    (Int.natCast_ne_zero.mpr b.den_nz)]
  rfl

theorem qmul_eq (a b : ℚ) : qmul a b = a * b := by
  conv_rhs => rw [← Rat.num_divInt_den a, ← Rat.num_divInt_den b, Rat.divInt_mul_divInt']
  rfl

theorem qdiv_eq (a b : ℚ) : qdiv a b = a / b := (Rat.div_def' a b).symm

structure Sample where
  phase : String
  label : List Char
  downloaded : ℕ
  total_size : ℕ
  speed : ℚ
  eta : Option ℚ
  pct : Option ℚ
deriving DecidableEq

/-- `while next_percent_mark <= 1.0 and (downloaded / total_size) >= next_percent_mark:
next_percent_mark += 0.1` — the loop body runs at most 11 times (the mark
rises by 1/10 per step and must stay ≤ 1 to continue), so fuel 12 makes
the recursion total without changing its value. -/
def advanceMark : ℕ → ℚ → ℚ → ℚ
  | 0, mark, _ => mark
  | fuel + 1, mark, ratio =>
    if mark ≤ 1 ∧ ratio ≥ mark then advanceMark fuel (qadd mark (mkRat 1 10)) ratio else mark

/-- The download loop of lines 539–593. Arguments after the fixed ones:
remaining chunks, next clock index, `downloaded`, `last_log_ts`,
`next_percent_mark`. Returns emitted (sample, now) events, the final
`downloaded`, and the next clock index. -/
def dlLoop (total : ℕ) (tag : List Char) (start : ℚ) (clock : ℕ → ℚ) :
    List ℕ → ℕ → ℕ → ℚ → ℚ → List (Sample × ℚ) × ℕ × ℕ
  | [], idx, downloaded, _, _ => ([], downloaded, idx)
  | n :: rest, idx, downloaded, lastLog, mark =>
    if n = 0 then ([], downloaded, idx)
    else
      let downloaded' := downloaded + n
      let now := clock idx
      let elapsed := max (mkRat 1 1000) (qsub now start)
      let speed := qdiv (downloaded' : ℚ) elapsed
      let shouldTime := qsub now lastLog ≥ mkRat 12 10
      let ratio := qdiv (downloaded' : ℚ) (total : ℚ)
      let shouldPct := total ≠ 0 ∧ ratio ≥ mark
      if shouldTime ∨ shouldPct then
        if 0 < total then
          let pct := min 100 (qdiv (qmul (downloaded' : ℚ) 100) (total : ℚ))
          let eta := qdiv ((total - downloaded' : ℕ) : ℚ) (max 1 speed)
          let ev : Sample :=
            { phase := "downloading", label := tag, downloaded := downloaded',
              total_size := total, speed := speed, eta := some eta, pct := some pct }
          let res := dlLoop total tag start clock rest (idx + 1) downloaded' now
            (advanceMark 12 mark ratio)
          ((ev, now) :: res.1, res.2)
        else
          let ev : Sample :=
            { phase := "downloading", label := tag, downloaded := downloaded',
              total_size := 0, speed := speed, eta := none, pct := none }
          let res := dlLoop total tag start clock rest (idx + 1) downloaded' now mark
          ((ev, now) :: res.1, res.2)
      else
        dlLoop total tag start clock rest (idx + 1) downloaded' lastLog mark

/-- `download_file_with_progress`: returns the events its progress hook
receives (sample paired with emission time) and the byte count written to
the destination file. `label`, `fname` are the `label` argument and
`file_path.name`. -/
def download_file_with_progress (chunks : List ℕ) (total : ℕ) (clock : ℕ → ℚ)
    (label fname : List Char) : List (Sample × ℚ) × ℕ :=
  let tag := (if label ≠ [] then label else if fname ≠ [] then fname
    else "download".data).take 48
  let start := clock 0
  let startEv : Sample :=
    { phase := "start", label := tag, downloaded := 0, total_size := total,
      speed := 0, eta := none, pct := some 0 }
  let res := dlLoop total tag start clock chunks 1 0 0 (mkRat 1 10)
  let endNow := clock res.2.2
  let elapsed := max (mkRat 1 1000) (qsub endNow start)
  let avg := qdiv (res.2.1 : ℚ) elapsed
  let doneEv : Sample :=
    { phase := "done", label := tag, downloaded := res.2.1, total_size := total,
      speed := avg, eta := some 0, pct := if 0 < total then some 100 else none }
  ((startEv, start) :: res.1 ++ [(doneEv, endNow)], res.2.1)

/-- Just the samples a progress hook observes, in order. -/
def downloadSamples (chunks : List ℕ) (total : ℕ) (clock : ℕ → ℚ)
    (label fname : List Char) : List Sample :=
  (download_file_with_progress chunks total clock label fname).1.map Prod.fst

/-- Bytes written to the destination file by one invocation. -/
def bytesWritten (chunks : List ℕ) (total : ℕ) (clock : ℕ → ℚ)
    (label fname : List Char) : ℕ :=
  (download_file_with_progress chunks total clock label fname).2

/-! ## Output filenames (`safe_filename`, `output_filename`, lines 475–488)

`urllib.parse.urlparse(...).path` and `os.path.basename` are modelled for
the hierarchical `http(s)`/protocol-relative URLs the program produces,
with POSIX path separators. -/

def isBadFnameChar (c : Char) : Bool :=
  c = '\\' || c = '/' || c = ':' || c = '*' || c = '?' || c = '"' || c = '<' || c = '>' || c = '|'

/-- `re.sub(r'[\\/:*?"<>|]+', "_", text)`: each maximal run of forbidden
characters becomes a single underscore. -/
def safe_filename (s : List Char) : List Char := collapseRunsAux isBadFnameChar '_' false s

/-- Scheme marker `"://"` before the first `/`, as `urlparse` recognises it. -/
def afterSchemeMarker : List Char → Option (List Char)
  | [] => none
  | ':' :: '/' :: '/' :: rest => some rest
  | '/' :: _ => none
  | _ :: rest => afterSchemeMarker rest

/-- `urlparse(url).path`: strip fragment, then query, then scheme+netloc. -/
def urlParsePath (url : List Char) : List Char :=
  let noFrag := url.takeWhile (fun c => c ≠ '#')
  let noQ := noFrag.takeWhile (fun c => c ≠ '?')
  if noQ.take 2 = ['/', '/'] then (noQ.drop 2).dropWhile (fun c => c ≠ '/')
  else
    match afterSchemeMarker noQ with
    | some rest => rest.dropWhile (fun c => c ≠ '/')
    | none => noQ

/-- `os.path.basename`: the part after the last `/`. -/
def pyBasename (p : List Char) : List Char :=
  (p.reverse.takeWhile (fun c => c ≠ '/')).reverse

/-- `output_filename` (lines 479–488). -/
def output_filename (direct_url title : List Char) : List Char :=
  let file_name := pyBasename (urlParsePath direct_url)
  let file_name :=
    if file_name.isEmpty ∨ pyLower file_name = "dl.cgi".data ∨ pyLower file_name = "d.cgi".data
    then safe_filename title ++ ".zip".data
    else file_name
  htmlUnescape file_name

/-! ## One task (`run_one_task`, lines 621–714)

The network is the explicit environment `TaskEnv`: each field gives, as a
function of the arguments the task passes, the observable outcome of the
corresponding helper — a raised exception (modelled as `Except.error`
with the exception's `str(e)` message) or its return value. The resolver
helpers `resolve_direct_download_url` / `resolve_steamworkshopdownload_url`
return `none` for a falsy (absent) direct URL, mirroring
`parse_direct_url`'s `None`. The catalog search fields return the scraped
result lists; the pure selection logic (`find_exact_catalog_result`,
`find_catalog_result_by_workshop_id`) is applied by the model itself.

A `TaskTrace` records the endpoint interactions and sleeps a run
performs: in Python these are observable side effects of the very same
control flow. -/

structure SteamItem where
  ItemId : List Char
  AppId : ℕ
  Title : List Char
  ItemUrl : List Char
deriving DecidableEq

structure TaskResult where
  keyword : List Char
  ok : Bool
  title : List Char
  url : List Char
  workshop_url : List Char
  file : List Char
  error : List Char
deriving DecidableEq

structure TaskEnv where
  findSteamItem : ℕ → List Char → Except (List Char) (Option SteamItem)
  findCatalogById : ℕ → List Char → Except (List Char) (List CatalogRow)
  resolveDirect : List Char → List Char → Except (List Char) (Option (List Char))
  resolveSwd : List Char → List Char → ℕ → Except (List Char) (Option (List Char))
  catalogSearch : Option ℕ → List Char → Except (List Char) (List CatalogRow)
  download : ℕ → Except (List Char) Unit

structure TaskTrace where
  steamSearchTexts : List (List Char)
  catalogByIdCalls : ℕ
  resolveDirectCalls : ℕ
  swdCalls : ℕ
  exactSearchTexts : List (List Char)
  downloadAttempts : ℕ
  sleeps : ℕ
deriving DecidableEq

def TaskTrace.empty : TaskTrace :=
  { steamSearchTexts := [], catalogByIdCalls := 0, resolveDirectCalls := 0,
    swdCalls := 0, exactSearchTexts := [], downloadAttempts := 0, sleeps := 0 }

/-- Python string truthiness of an optional string (`if not direct`). -/
def optTruthy : Option (List Char) → Bool
  | none => false
  | some s => !s.isEmpty

/-- Python `a or b` on strings. -/
def pyOr (a b : List Char) : List Char := if a.isEmpty then b else a

/-- Python `if appid:` — `None` and `0` are falsy. -/
def appidTruthy : Option ℕ → Bool
  | none => false
  | some a => a ≠ 0

/-- The download retry loop of lines 689–706, started at attempt index
`i` with `k` attempts remaining (`k = retries + 1 - i`). Returns
`last_error`, the number of attempts made, and the number of
`time.sleep(1)` backoffs taken. -/
def downloadLoopAux (dl : ℕ → Except (List Char) Unit) (i : ℕ) :
    ℕ → Option (List Char) × ℕ × ℕ
  | 0 => (none, 0, 0)
  | k + 1 =>
    match dl i with
    | .ok _ => (none, 1, 0)
    | .error e =>
      if k = 0 then (some e, 1, 0)
      else
        let res := downloadLoopAux dl (i + 1) k
        (res.1, res.2.1 + 1, res.2.2 + 1)

def downloadLoop (dl : ℕ → Except (List Char) Unit) (retries : ℕ) :
    Option (List Char) × ℕ × ℕ :=
  downloadLoopAux dl 0 (retries + 1)

/-- The scoped (steam-browser) phase of `run_one_task`, lines 643–669:
runs when `appid` is truthy. On an exception, returns the result record as
mutated so far (the top-level `except` keeps `title`/`workshop_url`).
Otherwise yields `(title, workshop_url, direct, trace)` as of line 670. -/
def scopedPhase (env : TaskEnv) (app : ℕ) (search_text : List Char) (base : TaskResult) :
    Except (TaskResult × TaskTrace) ((List Char) × (List Char) × Option (List Char) × TaskTrace) :=
  let tr1 := { TaskTrace.empty with steamSearchTexts := [search_text] }
  match env.findSteamItem app search_text with
  | .error e => .error ({ base with error := e }, tr1)
  | .ok none => .ok ([], [], none, tr1)
  | .ok (some si) =>
    let title1 := pyOr si.Title search_text
    let wurl := si.ItemUrl
    let tr2 := { tr1 with catalogByIdCalls := 1 }
    match env.findCatalogById si.AppId si.ItemId with
    | .error e =>
      let r := { base with title := title1, workshop_url := wurl, error := e }
      .error (r, tr2)
    | .ok rows =>
      match find_catalog_result_by_workshop_id rows with
      | some hit =>
        let title2 := pyOr hit.Title title1
        let tr3 := { tr2 with resolveDirectCalls := tr2.resolveDirectCalls + 1 }
        match env.resolveDirect hit.ModsLink hit.SearchUrl with
        | .error e =>
          let r := { base with title := title2, workshop_url := wurl, error := e }
          .error (r, tr3)
        | .ok d1 =>
          if optTruthy d1 then .ok (title2, wurl, d1, tr3)
          else
            let tr4 := { tr3 with swdCalls := tr3.swdCalls + 1 }
            match env.resolveSwd si.ItemUrl si.ItemId si.AppId with
            | .error e =>
              let r := { base with title := title2, workshop_url := wurl, error := e }
              .error (r, tr4)
            | .ok d2 => .ok (title2, wurl, d2, tr4)
      | none =>
        let tr4 := { tr2 with swdCalls := tr2.swdCalls + 1 }
        match env.resolveSwd si.ItemUrl si.ItemId si.AppId with
        | .error e =>
          let r := { base with title := title1, workshop_url := wurl, error := e }
          .error (r, tr4)
        | .ok d2 => .ok (title1, wurl, d2, tr4)

/-- The exact-match phase of `run_one_task`, lines 671–675: runs when
`direct` is still falsy after the scoped phase. -/
def exactPhase (env : TaskEnv) (appid : Option ℕ) (search_text : List Char)
    (base : TaskResult) (title0 wurl : List Char) (direct0 : Option (List Char))
    (trA : TaskTrace) :
    Except (TaskResult × TaskTrace) ((List Char) × Option (List Char) × TaskTrace) :=
  if optTruthy direct0 then .ok (title0, direct0, trA)
  else
    let trB := { trA with exactSearchTexts := trA.exactSearchTexts ++ [search_text] }
    match env.catalogSearch appid search_text with
    | .error e =>
      let r := { base with title := title0, workshop_url := wurl, error := e }
      .error (r, trB)
    | .ok results =>
      match find_exact_catalog_result results search_text with
      | some hit =>
        let title1 := pyOr hit.Title (pyOr title0 search_text)
        let trC := { trB with resolveDirectCalls := trB.resolveDirectCalls + 1 }
        match env.resolveDirect hit.ModsLink hit.SearchUrl with
        | .error e =>
          let r := { base with title := title1, workshop_url := wurl, error := e }
          .error (r, trC)
        | .ok d => .ok (title1, d, trC)
      | none => .ok (title0, none, trB)

/-- Lines 677–711: the "no direct URL" failure, link-only success, or the
download retry loop with its outcome. -/
def finishPhase (env : TaskEnv) (search_text : List Char) (base : TaskResult)
    (retries : ℕ) (only_get_link : Bool) (out_dir : List Char)
    (wurl title : List Char) (direct : Option (List Char)) (tr : TaskTrace) :
    TaskResult × TaskTrace :=
  if !optTruthy direct then
    let r :=
      { base with title := title, workshop_url := wurl,
                  error := "No exact match or direct URL".data }
    (r, tr)
  else
    let url := direct.getD []
    if only_get_link then
      let r := { base with title := title, workshop_url := wurl, url := url, ok := true }
      (r, tr)
    else
      let name := output_filename url (pyOr title search_text)
      let file_path := out_dir ++ "/".data ++ name
      let loop := downloadLoop env.download retries
      let tr' := { tr with downloadAttempts := loop.2.1, sleeps := loop.2.2 }
      match loop.1 with
      | some e =>
        let r :=
          { base with title := title, workshop_url := wurl, url := url,
                      error := e }
        (r, tr')
      | none =>
        let r :=
          { base with title := title, workshop_url := wurl, url := url,
                      file := file_path, ok := true }
        (r, tr')

/-- Lines 643–669 guarded by `if appid:` — when `appid` is falsy the
scoped phase is skipped and `title`/`workshop_url`/`direct` keep their
initial falsy values. -/
def scopedOrDefault (env : TaskEnv) (appid : Option ℕ) (search_text : List Char)
    (base : TaskResult) :
    Except (TaskResult × TaskTrace) ((List Char) × (List Char) × Option (List Char) × TaskTrace) :=
  if appidTruthy appid then scopedPhase env (appid.getD 0) search_text base
  else .ok ([], [], none, TaskTrace.empty)

/-- `run_one_task` (lines 621–714), returning the result record together
with the interaction trace. `retries` enters as `ℕ`: both entry points
clamp it to `0..10` before any task runs. -/
def run_one_task (env : TaskEnv) (appid : Option ℕ) (keyword : List Char)
    (retries : ℕ) (only_get_link : Bool) (out_dir : List Char) :
    TaskResult × TaskTrace :=
  let base : TaskResult :=
    { keyword := keyword, ok := false, title := [], url := [],
      workshop_url := [], file := [], error := [] }
  let search_text := clean_keyword keyword
  if search_text.isEmpty then
    ({ base with error := "Empty keyword".data }, TaskTrace.empty)
  else
    match scopedOrDefault env appid search_text base with
    | .error out => out
    | .ok (title0, wurl, direct0, trA) =>
      match exactPhase env appid search_text base title0 wurl direct0 trA with
      | .error out => out
      | .ok (title, direct, tr) =>
        finishPhase env search_text base retries only_get_link out_dir wurl title direct tr

/-! ## Batch orchestration (`run_batch`, lines 717–907)

Each submitted keyword becomes one `executor.submit(_task, kw)` future
(line 858) running `run_one_task` with its own opener/session; `envs i`
is the network environment task `i` observes. `as_completed` yields
futures in a nondeterministic completion order, modelled as an arbitrary
permutation `order` of the task indices; `run_batch` appends each
completed future's result to `results` (line 862). -/

def runBatchResults (envs : ℕ → TaskEnv) (appid : Option ℕ)
    (keywords : List (List Char)) (retries : ℕ) (only_get_link : Bool)
    (out_dir : List Char) (order : List ℕ) : List TaskResult :=
  order.map fun i =>
    (run_one_task (envs i) appid (keywords.getD i []) retries only_get_link out_dir).1

/-- Per-field sanitisation of a report row (lines 898–903): `keyword`,
`title`, `error` have tabs and newlines replaced by spaces and are
stripped; `workshop_url`, `direct_url` only have tabs replaced. -/
def sanTabNl (s : List Char) : List Char :=
  pyStrip (s.map fun c => if c = '\t' ∨ c = '\n' then ' ' else c)

def sanTab (s : List Char) : List Char :=
  pyStrip (s.map fun c => if c = '\t' then ' ' else c)

/-- The six tab-separated fields of one report row (line 904). -/
def reportFields (r : TaskResult) : List (List Char) :=
  [sanTabNl r.keyword, sanTab r.workshop_url, sanTabNl r.title, sanTab r.url,
    (if r.ok then "ok".data else "failed".data), sanTabNl r.error]

def reportLine (r : TaskResult) : List Char :=
  List.intercalate "\t".data (reportFields r)

def headerLine : List Char :=
  "keyword\tworkshop_url\ttitle\tdirect_url\tstatus\terror".data

/-- The mapping-report file `run_batch` writes (lines 891–905), as its
list of lines (each written with a trailing newline): present iff
`single_mode` — `len(keywords) == 1`, line 852 — is false. -/
def batchReportLines (keywords : List (List Char)) (results : List TaskResult) :
    Option (List (List Char)) :=
  if keywords.length = 1 then none
  else some (headerLine :: results.map reportLine)

/-- The report produced by a whole `run_batch` call. -/
def runBatchReport (envs : ℕ → TaskEnv) (appid : Option ℕ)
    (keywords : List (List Char)) (retries : ℕ) (only_get_link : Bool)
    (out_dir : List Char) (order : List ℕ) : Option (List (List Char)) :=
  batchReportLines keywords
    (runBatchResults envs appid keywords retries only_get_link out_dir order)

/-! ## The phase history of one progress slot

`run_batch` keeps one mutable slot per distinct keyword
(`progress_state["tasks"]`, lines 736–745), initialised with phase
`"queued"`. Every sample the task's hook emits overwrites the slot's
phase with the payload's phase (`on_progress`, lines 750–761; the
payloads carry the non-empty phases `"start"`, `"downloading"`, `"done"`
of `download_file_with_progress`). When the task's future completes,
`run_batch` sets the slot to `"done"` or `"failed"` (lines 863–871).

For a task with a distinct keyword the recorded phase history is
therefore: `"queued"`, then the hook phases of each download attempt in
order (a failed attempt is cut off by its exception before the `"done"`
sample), then the terminal phase. `failures` lists the `"downloading"`
sample counts of the failed attempts; `finalk` is `some k` when a final
attempt succeeded after emitting `k` `"downloading"` samples (the task
then ends `ok`), `none` when the task failed (retry budget exhausted, or
it never reached a download). -/

def attemptPhases (success : Bool) (k : ℕ) : List String :=
  "start" :: (List.replicate k "downloading" ++ if success then ["done"] else [])

def taskHookPhases (failures : List ℕ) (finalk : Option ℕ) : List String :=
  (failures.map fun k => attemptPhases false k).flatten ++
    (match finalk with
     | some k => attemptPhases true k
     | none => [])

def slotPhases (failures : List ℕ) (finalk : Option ℕ) : List String :=
  "queued" :: taskHookPhases failures finalk ++
    [if finalk.isSome then "done" else "failed"]

/-- Position of a phase along `queued → start → downloading → {done, failed}`. -/
def phaseRank : String → ℕ
  | "queued" => 0
  | "start" => 1
  | "downloading" => 2
  | "done" => 3
  | "failed" => 3
  | _ => 4

/-- A minimal concrete environment for witnesses: every endpoint fails
with a fixed message and downloads succeed. -/
def trivialEnv : TaskEnv :=
  { findSteamItem := fun _ _ => .error "x".data,
    findCatalogById := fun _ _ => .error "x".data,
    resolveDirect := fun _ _ => .error "x".data,
    resolveSwd := fun _ _ _ => .error "x".data,
    catalogSearch := fun _ _ => .error "x".data,
    download := fun _ => .ok () }

/-! # Theorems settling the claims -/

/-! ## Supporting lemmas -/

theorem dropWhile_dropWhile (p : α → Bool) (l : List α) :
    (l.dropWhile p).dropWhile p = l.dropWhile p := by
  induction l with
  | nil => simp
  | cons a t ih =>
    by_cases h : p a
    · simpa [List.dropWhile_cons, h] using ih
    · simp [List.dropWhile_cons, h]

/-- If `l` has no leading class character, right-stripping it leaves no
leading class character either. -/
theorem dropWhile_reverse_rstrip (p : α → Bool) (l : List α)
    (h : l.dropWhile p = l) :
    ((l.reverse.dropWhile p).reverse).dropWhile p = (l.reverse.dropWhile p).reverse := by
  cases l with
  | nil => simp
  | cons x xs =>
    have hx : p x = false := by
      by_contra hpx
      have hpx' : p x = true := by
        cases hpx2 : p x with
        | false => exact absurd hpx2 hpx
        | true => rfl
      have := congrArg List.length h
      simp [List.dropWhile_cons, hpx'] at this
      have hle := dropWhile_length_le p xs
      omega
    set R := ((x :: xs).reverse.dropWhile p) with hR
    have hRsuf : R <:+ (x :: xs).reverse := List.dropWhile_suffix p
    have hRne : R ≠ [] := by
      intro hnil
      have hall := List.dropWhile_eq_nil_iff.mp hnil
      have hxmem : x ∈ (x :: xs).reverse := by simp
      have := hall x hxmem
      rw [hx] at this
      exact Bool.false_ne_true this
    have hlast : R.getLast? = some x := by
      obtain ⟨t, ht⟩ := hRsuf
      have h1 : R.getLast? = (t ++ R).getLast? := (List.getLast?_append_of_ne_nil t hRne).symm
      rw [h1, ht, List.reverse_cons]
      exact List.getLast?_concat _
    have hhead : R.reverse.head? = some x := by
      rw [List.head?_reverse]
      exact hlast
    cases hRrev : R.reverse with
    | nil => simp
    | cons y ys =>
      have hy : y = x := by
        rw [hRrev] at hhead
        simpa using hhead
      rw [List.dropWhile_cons, hy, hx]
      simp

theorem pyStrip_idem (s : List Char) : pyStrip (pyStrip s) = pyStrip s := by
  have h0 : (s.dropWhile isPySpace).dropWhile isPySpace = s.dropWhile isPySpace :=
    dropWhile_dropWhile isPySpace s
  have h1 := dropWhile_reverse_rstrip isPySpace (s.dropWhile isPySpace) h0
  show pyStrip (((s.dropWhile isPySpace).reverse.dropWhile isPySpace).reverse) = _
  unfold pyStrip
  rw [h1]
  rw [List.reverse_reverse, dropWhile_dropWhile]

theorem pyStrip_dropWhile (s : List Char) :
    pyStrip (s.dropWhile isPySpace) = pyStrip s := by
  simp [pyStrip, dropWhile_dropWhile]

/-- With no closing `）` in `note`, skip mode consumes `note ++ ['）']`
entirely and resumes cleanly after it. -/
theorem stripFwAux_skip (note tail : List Char) (h : '）' ∉ note) :
    stripFwAux true (note ++ '）' :: tail) = stripFwAux false tail := by
  induction note with
  | nil => simp [stripFwAux]
  | cons c cs ih =>
    have hc : c ≠ '）' := by
      intro hc
      exact h (hc ▸ List.mem_cons_self c cs)
    have hcs : '）' ∉ cs := fun hm => h (List.mem_cons_of_mem c hm)
    simp [stripFwAux, hc, ih hcs]

/-- A fullwidth-parenthesised suffix whose body has no closing paren is
deleted entirely, and a prefix free of fullwidth parens is kept. -/
theorem stripFwAux_clean (name note : List Char)
    (h1 : '（' ∉ name) (h3 : '）' ∉ note) :
    stripFwAux false (name ++ '（' :: (note ++ ['）'])) = name := by
  induction name with
  | nil =>
    have hmem : ('）' :: ([] : List Char)) ≠ [] := by simp
    have hcontains : (note ++ ['）']).contains '）' = true := by
      simp [List.contains_eq_any_beq]
    simp only [List.nil_append, stripFwAux, hcontains]
    have := stripFwAux_skip note [] h3
    simpa using this
  | cons c cs ih =>
    have hc : c ≠ '（' := by
      intro hc
      exact h1 (hc ▸ List.mem_cons_self c cs)
    have hcs : '（' ∉ cs := fun hm => h1 (List.mem_cons_of_mem c hm)
    simp [stripFwAux, hc, ih hcs]

theorem clean_keyword_strip_input (name note : List Char) :
    pyStrip (name ++ '（' :: (note ++ ['）']))
      = name.dropWhile isPySpace ++ '（' :: (note ++ ['）']) := by
  have hfw : isPySpace '（' = false := by decide
  have hcw : isPySpace '）' = false := by decide
  have hfront : (name ++ '（' :: (note ++ ['）'])).dropWhile isPySpace
      = name.dropWhile isPySpace ++ '（' :: (note ++ ['）']) := by
    rw [List.dropWhile_append]
    by_cases hN : (name.dropWhile isPySpace).isEmpty
    · rw [if_pos hN, List.dropWhile_cons, hfw]
      rw [List.isEmpty_iff] at hN
      rw [hN, List.nil_append]
      simp
    · rw [if_neg hN]
  unfold pyStrip
  rw [hfront]
  have hback : (name.dropWhile isPySpace ++ '（' :: (note ++ ['）'])).reverse.dropWhile isPySpace
      = (name.dropWhile isPySpace ++ '（' :: (note ++ ['）'])).reverse := by
    have : (name.dropWhile isPySpace ++ '（' :: (note ++ ['）'])).reverse
        = '）' :: (note.reverse ++ '（' :: (name.dropWhile isPySpace).reverse) := by
      simp
    rw [this, List.dropWhile_cons, hcw]
    simp
  rw [hback, List.reverse_reverse]

theorem clean_keyword_fullwidth (name note : List Char)
    (h1 : '（' ∉ name) (h3 : '）' ∉ note) :
    clean_keyword (name ++ '（' :: (note ++ ['）'])) = pyStrip name := by
  unfold clean_keyword
  rw [clean_keyword_strip_input]
  unfold stripFullwidthParens
  have hmem : '（' ∉ name.dropWhile isPySpace := by
    intro hm
    exact h1 ((List.dropWhile_sublist isPySpace).mem hm)
  rw [stripFwAux_clean _ _ hmem h3]
  exact pyStrip_dropWhile name

/-! ## Claim C3 — exact-match selection -/

/-- **C3.** Exact-match selection in the catalog path uses strict
normalised string equality (HTML-entity decoding, trimming, lowercasing,
whitespace collapsing), never substring or fuzzy matching: any row
`find_exact_catalog_result` selects comes from the result list and its
normalised title equals the normalised keyword exactly; and when no
result's title is normalised-equal to the keyword it returns no hit, so
the cascade fails rather than picking a near-match. -/
theorem claim_C3_exact_selection (results : List CatalogRow) (key : List Char) :
    (∀ row, find_exact_catalog_result results key = some row →
      row ∈ results ∧ normalize_exact_text row.Title = normalize_exact_text key) ∧
    ((∀ row ∈ results, normalize_exact_text row.Title ≠ normalize_exact_text key) →
      find_exact_catalog_result results key = none) := by
  constructor
  · intro row h
    unfold find_exact_catalog_result at h
    split at h
    · exact absurd h (by simp)
    · refine ⟨List.mem_of_find?_eq_some h, ?_⟩
      have := List.find?_some h
      simpa using this
  · intro hnone
    unfold find_exact_catalog_result
    split
    · rfl
    · apply List.find?_eq_none.mpr
      intro x hx
      simpa using hnone x hx

/-- Witness for C3 at the spec's own example: search results titled
`"Foo Mod"` and `"Foo Mod Extended"` with keyword `"Foo Mod"` select only
the `"Foo Mod"` row, and a result set with no normalised-equal title
yields no hit. -/
theorem claim_C3_exact_selection_witness :
    ((⟨"1".data, "Foo Mod".data, "m1".data, "s1".data⟩ : CatalogRow) ∈
        ([⟨"1".data, "Foo Mod".data, "m1".data, "s1".data⟩,
          ⟨"2".data, "Foo Mod Extended".data, "m2".data, "s2".data⟩] : List CatalogRow) ∧
      normalize_exact_text ("Foo Mod".data : List Char)
        = normalize_exact_text "Foo Mod".data) ∧
    find_exact_catalog_result
      [⟨"2".data, "Foo Mod Extended".data, "m2".data, "s2".data⟩] "Foo Mod".data = none :=
  ⟨(claim_C3_exact_selection _ _).1 _ (by decide),
   (claim_C3_exact_selection _ _).2 (by decide)⟩

/-! ## Claim C10 — keyword cleaning -/

/-- **C10 counterexample.** The claim says parenthetical annotations are
stripped, in particular that for `"Name (note)"` the annotation does not
appear in the cleaned search text. In fact `clean_keyword`'s pattern
`（[^）]*）` uses the fullwidth parentheses U+FF08/U+FF09 only, so the
ASCII-parenthesised annotation survives unchanged. -/
theorem claim_C10_counterexample :
    clean_keyword "Name (note)".data = "Name (note)".data ∧
    "(note)".data <:+: clean_keyword "Name (note)".data := by
  constructor
  · decide
  · exact ⟨"Name ".data, [], by decide⟩

/-- **C10 (amended).** The search text is the keyword trimmed of
surrounding whitespace with *fullwidth* parenthetical annotations
`（…）` stripped; ASCII parentheses are left alone: for any keyword of
the form `name（note）` the annotation is removed (leaving the trimmed
`name`), and every cleaned keyword is fully trimmed. -/
theorem claim_C10_amended :
    (∀ name note : List Char, '（' ∉ name → '）' ∉ note →
      clean_keyword (name ++ '（' :: (note ++ ['）'])) = pyStrip name) ∧
    (∀ text : List Char, pyStrip (clean_keyword text) = clean_keyword text) := by
  constructor
  · exact fun name note h1 h3 => clean_keyword_fullwidth name note h1 h3
  · intro text
    unfold clean_keyword
    exact pyStrip_idem _

/-- Witness for the amended C10: `"Name （note）"` cleans to `"Name"`. -/
theorem claim_C10_amended_witness :
    clean_keyword ("Name ".data ++ '（' :: ("note".data ++ ['）'])) = pyStrip "Name ".data :=
  claim_C10_amended.1 "Name ".data "note".data (by decide) (by decide)

/-! ## Claim C1 — one result per keyword -/

/-- An exception in the scoped phase reports through the result as
mutated so far; the identity fields of `base` are untouched. -/
theorem scopedPhase_error_fields (env : TaskEnv) (app : ℕ) (st : List Char)
    (base : TaskResult) (out : TaskResult × TaskTrace)
    (h : scopedPhase env app st base = .error out) :
    out.1.keyword = base.keyword ∧ out.1.ok = base.ok ∧ out.1.url = base.url ∧
      out.1.file = base.file := by
  unfold scopedPhase at h
  repeat' split at h
  all_goals try try dsimp only [] at h
  all_goals first
    | (injection h with h'; subst h'; simp)
    | injection h

/-- Same for the exact-match phase. -/
theorem exactPhase_error_fields (env : TaskEnv) (appid : Option ℕ) (st : List Char)
    (base : TaskResult) (t0 w : List Char) (d0 : Option (List Char)) (trA : TaskTrace)
    (out : TaskResult × TaskTrace)
    (h : exactPhase env appid st base t0 w d0 trA = .error out) :
    out.1.keyword = base.keyword ∧ out.1.ok = base.ok ∧ out.1.url = base.url ∧
      out.1.file = base.file := by
  unfold exactPhase at h
  repeat' split at h
  all_goals try try dsimp only [] at h
  all_goals first
    | (injection h with h'; subst h'; simp)
    | injection h

/-- The finishing phase never touches the keyword field. -/
theorem finishPhase_keyword (env : TaskEnv) (st : List Char) (base : TaskResult)
    (retries : ℕ) (link : Bool) (o w t : List Char) (d : Option (List Char))
    (tr : TaskTrace) :
    (finishPhase env st base retries link o w t d tr).1.keyword = base.keyword := by
  unfold finishPhase
  repeat' split <;> first | rfl | simp | skip

/-- `scopedOrDefault` errors also keep the identity fields. -/
theorem scopedOrDefault_error_fields (env : TaskEnv) (appid : Option ℕ)
    (st : List Char) (base : TaskResult) (out : TaskResult × TaskTrace)
    (h : scopedOrDefault env appid st base = .error out) :
    out.1.keyword = base.keyword ∧ out.1.ok = base.ok ∧ out.1.url = base.url ∧
      out.1.file = base.file := by
  unfold scopedOrDefault at h
  split at h
  · exact scopedPhase_error_fields _ _ _ _ _ h
  · injection h

/-- Every exit of `run_one_task` carries the input keyword unchanged. -/
theorem run_one_task_keyword (env : TaskEnv) (appid : Option ℕ) (kw : List Char)
    (retries : ℕ) (link : Bool) (o : List Char) :
    (run_one_task env appid kw retries link o).1.keyword = kw := by
  unfold run_one_task
  dsimp only []
  split
  · rfl
  · split
    · rename_i out heq
      exact (scopedOrDefault_error_fields _ _ _ _ _ heq).1
    · rename_i tup heq
      split
      · rename_i out2 heq2
        exact (exactPhase_error_fields _ _ _ _ _ _ _ _ _ heq2).1
      · exact finishPhase_keyword _ _ _ _ _ _ _ _ _ _

theorem countP_range_getD (l : List (List Char)) (kw : List Char) :
    (List.range l.length).countP (fun i => l.getD i [] = kw) = l.count kw := by
  induction l with
  | nil => simp
  | cons a t ih =>
    rw [List.length_cons, List.range_succ_eq_map, List.countP_cons, List.countP_map]
    have hsucc : ∀ i ∈ List.range t.length,
        (((fun i => decide ((a :: t).getD i [] = kw)) ∘ Nat.succ) i = true
          ↔ (fun i => decide (t.getD i [] = kw)) i = true) := by
      intro i hi
      simp
    rw [List.countP_congr hsucc, ih, List.count_cons]
    by_cases hak : a = kw <;> simp [hak, beq_iff_eq]

/-- **C1.** For every non-empty keyword list, `run_batch` collects exactly
one task result per input keyword, preserving multiplicity: whatever
completion order the pool yields, the result list has one entry per
submitted keyword and, for each keyword value, as many results carrying
it as it occurs in the input (each produced by its own `run_one_task`
execution with its own environment). -/
theorem claim_C1_one_result_per_keyword (envs : ℕ → TaskEnv) (appid : Option ℕ)
    (keywords : List (List Char)) (retries : ℕ) (link : Bool) (o : List Char)
    (order : List ℕ) (hne : keywords ≠ [])
    (hperm : order.Perm (List.range keywords.length)) :
    (runBatchResults envs appid keywords retries link o order).length = keywords.length ∧
    ∀ kw, (runBatchResults envs appid keywords retries link o order).countP
        (fun r => r.keyword = kw) = keywords.count kw := by
  constructor
  · simp [runBatchResults, hperm.length_eq]
  · intro kw
    unfold runBatchResults
    rw [List.countP_map, hperm.countP_eq]
    have h1 : ∀ i ∈ List.range keywords.length,
        (((fun r : TaskResult => decide (r.keyword = kw)) ∘ fun i =>
          (run_one_task (envs i) appid (keywords.getD i []) retries link o).1) i = true
          ↔ (fun i => decide (keywords.getD i [] = kw)) i = true) := by
      intro i hi
      simp [Function.comp, run_one_task_keyword]
    rw [List.countP_congr h1, countP_range_getD]

/-- Witness for C1: duplicate keyword `"a"` yields two independent
results in a 3-keyword batch completed out of order. -/
theorem claim_C1_one_result_per_keyword_witness :
    (runBatchResults (fun _ => trivialEnv) none ["a".data, "a".data, "b".data] 0 true
        "/o".data [2, 0, 1]).length = 3 ∧
    (runBatchResults (fun _ => trivialEnv) none ["a".data, "a".data, "b".data] 0 true
        "/o".data [2, 0, 1]).countP (fun r => r.keyword = "a".data) = 2 := by
  have h := claim_C1_one_result_per_keyword (fun _ => trivialEnv) none
    ["a".data, "a".data, "b".data] 0 true "/o".data [2, 0, 1] (by decide)
    (by decide)
  exact ⟨h.1, by simpa using h.2 "a".data⟩

/-! ## Claim C2 — task failure containment -/

/-- `msg` is a message the environment can raise at one of the endpoints
`run_one_task` calls. -/
def envErrorAt (env : TaskEnv) (msg : List Char) : Prop :=
  (∃ app st, env.findSteamItem app st = .error msg) ∨
  (∃ a iid, env.findCatalogById a iid = .error msg) ∨
  (∃ ml su, env.resolveDirect ml su = .error msg) ∨
  (∃ iu iid a, env.resolveSwd iu iid a = .error msg) ∨
  (∃ a st, env.catalogSearch a st = .error msg) ∨
  (∃ i, env.download i = .error msg)

theorem downloadLoopAux_error (dl : ℕ → Except (List Char) Unit) (e : List Char) :
    ∀ k i, (downloadLoopAux dl i k).1 = some e → ∃ j, dl j = .error e := by
  intro k
  induction k with
  | zero => intro i h; simp [downloadLoopAux] at h
  | succ k ih =>
    intro i h
    unfold downloadLoopAux at h
    cases hdl : dl i with
    | ok u => rw [hdl] at h; simp at h
    | error e' =>
      rw [hdl] at h
      try dsimp only [] at h
      by_cases hk : k = 0
      · subst hk
        simp at h
        exact ⟨i, by rw [hdl, h]⟩
      · rw [if_neg hk] at h
        exact ih (i + 1) h

theorem scopedPhase_error_env (env : TaskEnv) (app : ℕ) (st : List Char)
    (base : TaskResult) (out : TaskResult × TaskTrace)
    (h : scopedPhase env app st base = .error out) : envErrorAt env out.1.error := by
  unfold scopedPhase at h
  cases hsi : env.findSteamItem app st with
  | error e =>
    rw [hsi] at h
    try dsimp only [] at h
    injection h with h'
    subst h'
    exact Or.inl ⟨app, st, by simpa using hsi⟩
  | ok osi =>
    rw [hsi] at h
    try dsimp only [] at h
    cases osi with
    | none => simp at h
    | some si =>
      try dsimp only [] at h
      cases hcb : env.findCatalogById si.AppId si.ItemId with
      | error e =>
        rw [hcb] at h
        try dsimp only [] at h
        injection h with h'
        subst h'
        exact Or.inr (Or.inl ⟨si.AppId, si.ItemId, by simpa using hcb⟩)
      | ok rows =>
        rw [hcb] at h
        try dsimp only [] at h
        cases hhit : find_catalog_result_by_workshop_id rows with
        | some hit =>
          rw [hhit] at h
          try dsimp only [] at h
          try dsimp only [] at h
          cases hrd : env.resolveDirect hit.ModsLink hit.SearchUrl with
          | error e =>
            rw [hrd] at h
            try dsimp only [] at h
            injection h with h'
            subst h'
            exact Or.inr (Or.inr (Or.inl ⟨hit.ModsLink, hit.SearchUrl, by simpa using hrd⟩))
          | ok d1 =>
            rw [hrd] at h
            try dsimp only [] at h
            by_cases hd1 : optTruthy d1
            · simp [hd1] at h
            · rw [if_neg hd1] at h
              try dsimp only [] at h
              cases hsw : env.resolveSwd si.ItemUrl si.ItemId si.AppId with
              | error e =>
                rw [hsw] at h
                try dsimp only [] at h
                injection h with h'
                subst h'
                exact Or.inr (Or.inr (Or.inr (Or.inl
                  ⟨si.ItemUrl, si.ItemId, si.AppId, by simpa using hsw⟩)))
              | ok d2 => rw [hsw] at h; simp at h
        | none =>
          rw [hhit] at h
          try dsimp only [] at h
          try dsimp only [] at h
          cases hsw : env.resolveSwd si.ItemUrl si.ItemId si.AppId with
          | error e =>
            rw [hsw] at h
            try dsimp only [] at h
            injection h with h'
            subst h'
            exact Or.inr (Or.inr (Or.inr (Or.inl
              ⟨si.ItemUrl, si.ItemId, si.AppId, by simpa using hsw⟩)))
          | ok d2 => rw [hsw] at h; simp at h

theorem exactPhase_error_env (env : TaskEnv) (appid : Option ℕ) (st : List Char)
    (base : TaskResult) (t0 w : List Char) (d0 : Option (List Char)) (trA : TaskTrace)
    (out : TaskResult × TaskTrace)
    (h : exactPhase env appid st base t0 w d0 trA = .error out) :
    envErrorAt env out.1.error := by
  unfold exactPhase at h
  by_cases hd0 : optTruthy d0
  · simp [hd0] at h
  · rw [if_neg hd0] at h
    try dsimp only [] at h
    cases hcs : env.catalogSearch appid st with
    | error e =>
      rw [hcs] at h
      try dsimp only [] at h
      injection h with h'
      subst h'
      exact Or.inr (Or.inr (Or.inr (Or.inr (Or.inl ⟨appid, st, by simpa using hcs⟩))))
    | ok results =>
      rw [hcs] at h
      try dsimp only [] at h
      cases hhit : find_exact_catalog_result results st with
      | some hit =>
        rw [hhit] at h
        try dsimp only [] at h
        try dsimp only [] at h
        cases hrd : env.resolveDirect hit.ModsLink hit.SearchUrl with
        | error e =>
          rw [hrd] at h
          try dsimp only [] at h
          injection h with h'
          subst h'
          exact Or.inr (Or.inr (Or.inl ⟨hit.ModsLink, hit.SearchUrl, by simpa using hrd⟩))
        | ok d => rw [hrd] at h; simp at h
      | none => rw [hhit] at h; simp at h

theorem scopedOrDefault_error_env (env : TaskEnv) (appid : Option ℕ)
    (st : List Char) (base : TaskResult) (out : TaskResult × TaskTrace)
    (h : scopedOrDefault env appid st base = .error out) : envErrorAt env out.1.error := by
  unfold scopedOrDefault at h
  split at h
  · exact scopedPhase_error_env _ _ _ _ _ h
  · injection h

/-- The three possible outcome shapes of the finishing phase. -/
theorem finishPhase_cases (env : TaskEnv) (st : List Char) (base : TaskResult)
    (retries : ℕ) (link : Bool) (o w t : List Char) (d : Option (List Char))
    (tr : TaskTrace) :
    (let r := (finishPhase env st base retries link o w t d tr).1
     (r.ok = true ∧ r.error = base.error) ∨
       (r.ok = base.ok ∧
         (r.error = "No exact match or direct URL".data ∨
           ∃ j, env.download j = .error r.error))) := by
  unfold finishPhase
  by_cases hd : optTruthy d
  · rw [if_neg (by simpa using hd)]
    try dsimp only []
    by_cases hl : link = true
    · simp [hl]
    · rw [if_neg hl]
      try dsimp only []
      cases hloop : (downloadLoop env.download retries).1 with
      | some e =>
        refine Or.inr ⟨rfl, Or.inr ?_⟩
        exact downloadLoopAux_error env.download e _ 0 hloop
      | none => exact Or.inl ⟨rfl, rfl⟩
  · rw [if_pos (by simpa using hd)]
    exact Or.inr ⟨rfl, Or.inl rfl⟩

theorem run_one_task_error_spec (env : TaskEnv) (appid : Option ℕ) (kw : List Char)
    (retries : ℕ) (link : Bool) (o : List Char) :
    ((run_one_task env appid kw retries link o).1.ok = false →
      (run_one_task env appid kw retries link o).1.error = "Empty keyword".data ∨
      (run_one_task env appid kw retries link o).1.error
        = "No exact match or direct URL".data ∨
      envErrorAt env (run_one_task env appid kw retries link o).1.error) ∧
    ((run_one_task env appid kw retries link o).1.ok = true →
      (run_one_task env appid kw retries link o).1.error = []) := by
  unfold run_one_task
  dsimp only []
  split
  · exact ⟨fun _ => Or.inl rfl, fun h => absurd h (by simp)⟩
  · split
    · rename_i out heq
      have hf := scopedOrDefault_error_fields _ _ _ _ _ heq
      have he := scopedOrDefault_error_env _ _ _ _ _ heq
      refine ⟨fun _ => Or.inr (Or.inr he), fun hok => ?_⟩
      rw [hf.2.1] at hok
      simp at hok
    · rename_i title0 wurl direct0 trA heq
      split
      · rename_i out2 heq2
        have hf := exactPhase_error_fields _ _ _ _ _ _ _ _ _ heq2
        have he := exactPhase_error_env _ _ _ _ _ _ _ _ _ heq2
        refine ⟨fun _ => Or.inr (Or.inr he), fun hok => ?_⟩
        rw [hf.2.1] at hok
        simp at hok
      · rename_i title direct trB heq2
        rcases finishPhase_cases env (clean_keyword kw)
            { keyword := kw, ok := false, title := [], url := [],
              workshop_url := [], file := [], error := [] }
            retries link o wurl title direct trB with
          ⟨hok, herr⟩ | ⟨hok, herr⟩
        · refine ⟨fun hfalse => ?_, fun _ => by simpa using herr⟩
          rw [hfalse] at hok
          exact absurd hok (by decide)
        · refine ⟨fun _ => ?_, fun htrue => ?_⟩
          · rcases herr with h1 | ⟨j, hj⟩
            · exact Or.inr (Or.inl h1)
            · exact Or.inr (Or.inr (Or.inr (Or.inr (Or.inr (Or.inr (Or.inr ⟨j, hj⟩))))))
          · rw [hok] at htrue
            simp at htrue

/-- **C2 counterexample.** The claim demands a non-empty error message on
every failure. A resolution exception whose `str(e)` is empty — e.g. a
bare `TimeoutError()` — is caught by `run_one_task` and stored verbatim,
leaving `ok = false` with an empty error. -/
theorem claim_C2_counterexample :
    (run_one_task
        { findSteamItem := fun _ _ => .error "x".data,
          findCatalogById := fun _ _ => .error "x".data,
          resolveDirect := fun _ _ => .error "x".data,
          resolveSwd := fun _ _ _ => .error "x".data,
          catalogSearch := fun _ _ => .error [],
          download := fun _ => .ok () }
        none "x".data 0 true "/o".data).1.ok = false ∧
    (run_one_task
        { findSteamItem := fun _ _ => .error "x".data,
          findCatalogById := fun _ _ => .error "x".data,
          resolveDirect := fun _ _ => .error "x".data,
          resolveSwd := fun _ _ _ => .error "x".data,
          catalogSearch := fun _ _ => .error [],
          download := fun _ => .ok () }
        none "x".data 0 true "/o".data).1.error = [] := by decide

/-- **C2 (amended).** `run_one_task` is total — for every input and
environment behaviour it returns a result record (with all of keyword,
ok, title, url, workshop_url, file, error present and the keyword
preserved) instead of raising, so one task's failure never aborts a
sibling or the batch. When it fails (`ok = false`) the error is either
one of the task's own non-empty messages (`"Empty keyword"`,
`"No exact match or direct URL"`) or the caught exception's message,
which is whatever the environment raised and may be empty; on success
the error is empty. -/
theorem claim_C2_amended (env : TaskEnv) (appid : Option ℕ) (kw : List Char)
    (retries : ℕ) (link : Bool) (o : List Char) :
    (run_one_task env appid kw retries link o).1.keyword = kw ∧
    ((run_one_task env appid kw retries link o).1.ok = false →
      (run_one_task env appid kw retries link o).1.error = "Empty keyword".data ∨
      (run_one_task env appid kw retries link o).1.error
        = "No exact match or direct URL".data ∨
      envErrorAt env (run_one_task env appid kw retries link o).1.error) ∧
    ((run_one_task env appid kw retries link o).1.ok = true →
      (run_one_task env appid kw retries link o).1.error = []) :=
  ⟨run_one_task_keyword _ _ _ _ _ _,
   (run_one_task_error_spec _ _ _ _ _ _).1,
   (run_one_task_error_spec _ _ _ _ _ _).2⟩

/-- Witness for the amended C2 at a concrete failing environment. -/
theorem claim_C2_amended_witness :
    (run_one_task trivialEnv none "kw".data 2 false "/o".data).1.error
        = "Empty keyword".data ∨
    (run_one_task trivialEnv none "kw".data 2 false "/o".data).1.error
        = "No exact match or direct URL".data ∨
    envErrorAt trivialEnv (run_one_task trivialEnv none "kw".data 2 false "/o".data).1.error :=
  (claim_C2_amended trivialEnv none "kw".data 2 false "/o".data).2.1 (by decide)

/-! ## Claim C5 — download retry behaviour -/

theorem downloadLoopAux_attempts_le (dl : ℕ → Except (List Char) Unit) :
    ∀ k i, (downloadLoopAux dl i k).2.1 ≤ k := by
  intro k
  induction k with
  | zero => intro i; simp [downloadLoopAux]
  | succ k ih =>
    intro i
    unfold downloadLoopAux
    cases dl i with
    | ok u => simp
    | error e =>
      by_cases hk : k = 0
      · simp [hk]
      · simp only [if_neg hk]
        have := ih (i + 1)
        simp
        omega

theorem downloadLoopAux_attempts_pos (dl : ℕ → Except (List Char) Unit) :
    ∀ k i, 1 ≤ k → 1 ≤ (downloadLoopAux dl i k).2.1 := by
  intro k
  induction k with
  | zero => intro i h; omega
  | succ k ih =>
    intro i _
    unfold downloadLoopAux
    cases dl i with
    | ok u => simp
    | error e =>
      by_cases hk : k = 0
      · simp [hk]
      · simp only [if_neg hk]
        simp

theorem downloadLoopAux_sleeps (dl : ℕ → Except (List Char) Unit) :
    ∀ k i, 1 ≤ k →
      (downloadLoopAux dl i k).2.2 = (downloadLoopAux dl i k).2.1 - 1 := by
  intro k
  induction k with
  | zero => intro i h; omega
  | succ k ih =>
    intro i _
    unfold downloadLoopAux
    cases dl i with
    | ok u => simp
    | error e =>
      by_cases hk : k = 0
      · simp [hk]
      · simp only [if_neg hk]
        have h1 := ih (i + 1) (by omega)
        have h2 := downloadLoopAux_attempts_pos dl k (i + 1) (by omega)
        simp
        omega

/-- Success at the first attempt index `m` inside the window: the loop
stops there with `m + 1` attempts and `m` backoff sleeps. -/
theorem downloadLoopAux_ok (dl : ℕ → Except (List Char) Unit) :
    ∀ m k i, m < k → (∀ j < m, ∃ e, dl (i + j) = .error e) → dl (i + m) = .ok () →
      downloadLoopAux dl i k = (none, m + 1, m) := by
  intro m
  induction m with
  | zero =>
    intro k i hk _ hok
    cases k with
    | zero => omega
    | succ k =>
      unfold downloadLoopAux
      simp only [Nat.add_zero] at hok
      rw [hok]
  | succ m ih =>
    intro k i hk hfail hok
    cases k with
    | zero => omega
    | succ k =>
      obtain ⟨e, he⟩ := hfail 0 (by omega)
      unfold downloadLoopAux
      simp only [Nat.add_zero] at he
      rw [he]
      dsimp only []
      have hkne : k ≠ 0 := by omega
      rw [if_neg hkne]
      have harg : ∀ j < m, ∃ e, dl (i + 1 + j) = .error e := by
        intro j hj
        have := hfail (j + 1) (by omega)
        simpa [Nat.add_assoc, Nat.add_comm 1 j] using this
      have hok' : dl (i + 1 + m) = .ok () := by
        simpa [Nat.add_assoc, Nat.add_comm 1 m] using hok
      rw [ih k (i + 1) (by omega) harg hok']

/-- Every attempt in the window fails: the loop exhausts the budget and
reports the last attempt's message. -/
theorem downloadLoopAux_fail (dl : ℕ → Except (List Char) Unit) :
    ∀ k i, 1 ≤ k → (∀ j < k, ∃ e, dl (i + j) = .error e) →
      ∃ e, dl (i + (k - 1)) = .error e ∧
        downloadLoopAux dl i k = (some e, k, k - 1) := by
  intro k
  induction k with
  | zero => intro i h; omega
  | succ k ih =>
    intro i _ hfail
    obtain ⟨e, he⟩ := hfail 0 (by omega)
    by_cases hk : k = 0
    · subst hk
      refine ⟨e, by simpa using he, ?_⟩
      unfold downloadLoopAux
      simp only [Nat.add_zero] at he
      rw [he]
      simp
    · have harg : ∀ j < k, ∃ e, dl (i + 1 + j) = .error e := by
        intro j hj
        have := hfail (j + 1) (by omega)
        simpa [Nat.add_assoc, Nat.add_comm 1 j] using this
      obtain ⟨e', he', heq⟩ := ih (i + 1) (by omega) harg
      refine ⟨e', ?_, ?_⟩
      · have : i + 1 + (k - 1) = i + (k + 1 - 1) := by omega
        rwa [this] at he'
      · unfold downloadLoopAux
        simp only [Nat.add_zero] at he
        rw [he]
        dsimp only []
        rw [if_neg hk, heq]
        simp
        omega

theorem run_one_task_exact_path (env : TaskEnv) (kw : List Char) (retries : ℕ)
    (link : Bool) (o : List Char) (results : List CatalogRow) (row : CatalogRow)
    (url : List Char)
    (hkw : (clean_keyword kw).isEmpty = false)
    (hcs : env.catalogSearch none (clean_keyword kw) = .ok results)
    (hrow : find_exact_catalog_result results (clean_keyword kw) = some row)
    (hrd : env.resolveDirect row.ModsLink row.SearchUrl = .ok (some url)) :
    run_one_task env none kw retries link o
      = finishPhase env (clean_keyword kw)
          { keyword := kw, ok := false, title := [], url := [],
            workshop_url := [], file := [], error := [] }
          retries link o []
          (pyOr row.Title (clean_keyword kw)) (some url)
          { TaskTrace.empty with exactSearchTexts := [clean_keyword kw],
                                 resolveDirectCalls := 1 } := by
  unfold run_one_task scopedOrDefault exactPhase
  dsimp only []
  rw [hkw]
  simp only [Bool.false_eq_true, if_false]
  rw [show appidTruthy none = false from rfl]
  simp only [Bool.false_eq_true, if_false]
  rw [show optTruthy none = false from rfl]
  simp only [Bool.false_eq_true, if_false]
  rw [hcs]
  dsimp only []
  rw [hrow]
  dsimp only []
  rw [hrd]
  dsimp only [TaskTrace.empty]
  rfl

/-- **C5 (amended).** In a download run (`only_get_link = false`) whose
resolution went through the exact-match path, a download failure triggers
a re-download of the *same* previously resolved URL — resolution is not
re-run: the trace shows exactly one catalog search and one direct-URL
resolution however many download attempts occur — up to `retries`
additional attempts separated by one `time.sleep(1)` backoff each
(sleeps = attempts − 1), each attempt restarting the transfer from byte
0; the task succeeds iff some attempt within the budget succeeds and
terminates as a failure once the budget is exhausted. -/
theorem claim_C5_amended (env : TaskEnv) (kw : List Char) (retries : ℕ) (o : List Char)
    (results : List CatalogRow) (row : CatalogRow) (url : List Char)
    (hkw : (clean_keyword kw).isEmpty = false)
    (hcs : env.catalogSearch none (clean_keyword kw) = .ok results)
    (hrow : find_exact_catalog_result results (clean_keyword kw) = some row)
    (hrd : env.resolveDirect row.ModsLink row.SearchUrl = .ok (some url))
    (hurl : url.isEmpty = false) :
    (run_one_task env none kw retries false o).2.exactSearchTexts = [clean_keyword kw] ∧
    (run_one_task env none kw retries false o).2.steamSearchTexts = [] ∧
    (run_one_task env none kw retries false o).2.resolveDirectCalls = 1 ∧
    (run_one_task env none kw retries false o).2.downloadAttempts
        = (downloadLoop env.download retries).2.1 ∧
    (run_one_task env none kw retries false o).2.downloadAttempts ≤ retries + 1 ∧
    (run_one_task env none kw retries false o).2.sleeps
        = (run_one_task env none kw retries false o).2.downloadAttempts - 1 ∧
    ((run_one_task env none kw retries false o).1.ok = true
        ↔ (downloadLoop env.download retries).1 = none) ∧
    (∀ m, m ≤ retries → (∀ j, j < m → ∃ e, env.download j = .error e) →
      env.download m = .ok () →
      (run_one_task env none kw retries false o).2.downloadAttempts = m + 1) ∧
    ((∀ j, j ≤ retries → ∃ e, env.download j = .error e) →
      (run_one_task env none kw retries false o).1.ok = false ∧
      (run_one_task env none kw retries false o).2.downloadAttempts = retries + 1) ∧
    (∀ chunks total clock label fname,
      (downloadSamples chunks total clock label fname).head?.map Sample.downloaded
        = some 0) := by
  rw [run_one_task_exact_path env kw retries false o results row url hkw hcs hrow hrd]
  unfold finishPhase
  have hopt : optTruthy (some url) = true := by simp [optTruthy, hurl]
  simp only [hopt, Bool.not_true, Bool.false_eq_true, if_false]
  have hattempts := downloadLoopAux_attempts_le env.download (retries + 1) 0
  have hsleeps := downloadLoopAux_sleeps env.download (retries + 1) 0 (by omega)
  simp only [downloadLoop]
  try dsimp only []
  cases hloop : (downloadLoopAux env.download 0 (retries + 1)).1 with
  | some e =>
    refine ⟨rfl, rfl, rfl, rfl, hattempts, hsleeps, ?_, ?_, ?_, ?_⟩
    · simp [hloop]
    · intro m hm hfail hok
      have := downloadLoopAux_ok env.download m (retries + 1) 0 (by omega)
        (by intro j hj; simpa using hfail j hj) (by simpa using hok)
      rw [this]
    · intro hfail
      refine ⟨rfl, ?_⟩
      obtain ⟨e', he', heq⟩ := downloadLoopAux_fail env.download (retries + 1) 0 (by omega)
        (by intro j hj; simpa using hfail j (by omega))
      rw [heq]
    · intro chunks total clock label fname
      rfl
  | none =>
    refine ⟨rfl, rfl, rfl, rfl, hattempts, hsleeps, ?_, ?_, ?_, ?_⟩
    · simp [hloop]
    · intro m hm hfail hok
      have := downloadLoopAux_ok env.download m (retries + 1) 0 (by omega)
        (by intro j hj; simpa using hfail j hj) (by simpa using hok)
      rw [this]
    · intro hfail
      obtain ⟨e', he', heq⟩ := downloadLoopAux_fail env.download (retries + 1) 0 (by omega)
        (by intro j hj; simpa using hfail j (by omega))
      rw [heq] at hloop
      exact absurd hloop (by simp)
    · intro chunks total clock label fname
      rfl

def row5 : CatalogRow := ⟨"7".data, "k".data, "ml".data, "su".data⟩

def env5w : TaskEnv :=
  { trivialEnv with
      catalogSearch := fun _ _ => .ok [row5],
      resolveDirect := fun _ _ => .ok (some "https://d.com/f.zip".data) }

/-- Witness for the amended C5 at a concrete resolving environment. -/
theorem claim_C5_amended_witness :
    (run_one_task env5w none "k".data 1 false "/o".data).2.exactSearchTexts
        = [clean_keyword "k".data] ∧
    (run_one_task env5w none "k".data 1 false "/o".data).2.downloadAttempts ≤ 1 + 1 :=
  ⟨(claim_C5_amended env5w "k".data 1 "/o".data [row5] row5 "https://d.com/f.zip".data
      (by decide) (by rfl) (by decide) (by rfl) (by decide)).1,
   (claim_C5_amended env5w "k".data 1 "/o".data [row5] row5 "https://d.com/f.zip".data
      (by decide) (by rfl) (by decide) (by rfl) (by decide)).2.2.2.2.1⟩

def env5c : TaskEnv :=
  { env5w with download := fun i => if i = 0 then .error "boom".data else .ok () }

/-- **C5 counterexample.** With `retries = 1` and a first download attempt
that fails, the task retries the transfer (two download attempts) and
succeeds — but the trace records exactly one catalog search and one
direct-URL resolution: the retry is *not* a full re-resolution-plus-
re-fetch cycle as the claim states; only the fetch is repeated. -/
theorem claim_C5_counterexample :
    (run_one_task env5c none "k".data 1 false "/o".data).1.ok = true ∧
    (run_one_task env5c none "k".data 1 false "/o".data).2.downloadAttempts = 2 ∧
    (run_one_task env5c none "k".data 1 false "/o".data).2.sleeps = 1 ∧
    (run_one_task env5c none "k".data 1 false "/o".data).2.exactSearchTexts.length = 1 ∧
    (run_one_task env5c none "k".data 1 false "/o".data).2.resolveDirectCalls = 1 := by
  decide

/-! ## Claim C9 — batch report file -/

/-- **C9 (amended).** `run_batch` writes the mapping report iff the number
of submitted keywords differs from one (`single_mode = len(keywords) == 1`):
multi-keyword batches get it, a single-keyword run never does, and the
degenerate empty batch also writes a (header-only) report. The file is the
header row followed by exactly one data row per collected task result, in
six tab-joined fields whose status column is `"ok"` exactly when the task
succeeded and `"failed"` otherwise. -/
theorem claim_C9_amended (envs : ℕ → TaskEnv) (appid : Option ℕ)
    (keywords : List (List Char)) (retries : ℕ) (link : Bool) (o : List Char)
    (order : List ℕ) :
    (keywords.length = 1 →
      runBatchReport envs appid keywords retries link o order = none) ∧
    (keywords.length ≠ 1 →
      runBatchReport envs appid keywords retries link o order
        = some (headerLine ::
            (runBatchResults envs appid keywords retries link o order).map reportLine)) ∧
    (∀ r : TaskResult, (reportFields r).length = 6 ∧
      (reportFields r).getD 4 []
        = (if r.ok then "ok".data else "failed".data)) ∧
    (order.Perm (List.range keywords.length) →
      ((runBatchResults envs appid keywords retries link o order).map reportLine).length
        = keywords.length) := by
  refine ⟨?_, ?_, ?_, ?_⟩
  · intro h
    unfold runBatchReport batchReportLines
    rw [if_pos h]
  · intro h
    unfold runBatchReport batchReportLines
    rw [if_neg h]
  · intro r
    cases hok : r.ok <;> simp [reportFields, hok]
  · intro hperm
    simp [runBatchResults, hperm.length_eq]

/-- Witness for the amended C9: a 2-keyword batch writes header + 2 rows;
a 1-keyword batch writes nothing. -/
theorem claim_C9_amended_witness :
    runBatchReport (fun _ => trivialEnv) none ["a".data, "b".data] 0 true "/o".data [1, 0]
      = some (headerLine ::
          (runBatchResults (fun _ => trivialEnv) none ["a".data, "b".data] 0 true
            "/o".data [1, 0]).map reportLine) ∧
    runBatchReport (fun _ => trivialEnv) none ["a".data] 0 true "/o".data [0] = none :=
  ⟨(claim_C9_amended (fun _ => trivialEnv) none ["a".data, "b".data] 0 true "/o".data
      [1, 0]).2.1 (by decide),
   (claim_C9_amended (fun _ => trivialEnv) none ["a".data] 0 true "/o".data [0]).1
      (by decide)⟩

/-- **C9 counterexample.** The claim says the report is written iff more
than one keyword was submitted. An empty batch (reachable from the
interactive menu with an empty keyword) is not `single_mode`, so the code
writes a header-only report even though zero keywords were submitted. -/
theorem claim_C9_counterexample :
    runBatchReport (fun _ => trivialEnv) none [] 0 true "/o".data [] = some [headerLine] ∧
    ¬ 1 < ([] : List (List Char)).length := by
  constructor
  · rfl
  · decide

/-! ## Claim C6 — progress monotonicity -/

/-- Invariants of the download loop: the final byte count dominates the
running one, every emitted sample's `downloaded` lies between them, and
the emitted byte counts are pairwise non-decreasing. -/
theorem dlLoop_bounds (total : ℕ) (tag : List Char) (start : ℚ) (clock : ℕ → ℚ) :
    ∀ (chunks : List ℕ) (idx d : ℕ) (lastLog mark : ℚ),
      d ≤ (dlLoop total tag start clock chunks idx d lastLog mark).2.1 ∧
      (∀ ev ∈ (dlLoop total tag start clock chunks idx d lastLog mark).1,
        d ≤ ev.1.downloaded ∧
          ev.1.downloaded ≤ (dlLoop total tag start clock chunks idx d lastLog mark).2.1) ∧
      ((dlLoop total tag start clock chunks idx d lastLog mark).1.map
        (fun ev => ev.1.downloaded)).Pairwise (· ≤ ·) := by
  intro chunks
  induction chunks with
  | nil => intro idx d lastLog mark; simp [dlLoop]
  | cons n rest ih =>
    intro idx d lastLog mark
    unfold dlLoop
    by_cases hn : n = 0
    · simp [hn]
    · rw [if_neg hn]
      dsimp only []
      split
      · split
        · dsimp only []
          obtain ⟨h1, h2, h3⟩ := ih (idx + 1) (d + n) (clock idx)
            (advanceMark 12 mark (qdiv ((d + n : ℕ) : ℚ) ((total : ℕ) : ℚ)))
          refine ⟨by omega, ?_, ?_⟩
          · intro ev hev
            rcases List.mem_cons.mp hev with hev | hev
            · subst hev
              refine ⟨?_, ?_⟩
              · show d ≤ d + n
                omega
              · show d + n ≤ _
                exact h1
            · obtain ⟨ha, hb⟩ := h2 ev hev
              exact ⟨by omega, hb⟩
          · rw [List.map_cons]
            refine List.Pairwise.cons ?_ h3
            intro b hb
            obtain ⟨ev, hev, heq⟩ := List.mem_map.mp hb
            obtain ⟨ha, _⟩ := h2 ev hev
            show d + n ≤ b
            omega
        · dsimp only []
          obtain ⟨h1, h2, h3⟩ := ih (idx + 1) (d + n) (clock idx) mark
          refine ⟨by omega, ?_, ?_⟩
          · intro ev hev
            rcases List.mem_cons.mp hev with hev | hev
            · subst hev
              refine ⟨?_, ?_⟩
              · show d ≤ d + n
                omega
              · show d + n ≤ _
                exact h1
            · obtain ⟨ha, hb⟩ := h2 ev hev
              exact ⟨by omega, hb⟩
          · rw [List.map_cons]
            refine List.Pairwise.cons ?_ h3
            intro b hb
            obtain ⟨ev, hev, heq⟩ := List.mem_map.mp hb
            obtain ⟨ha, _⟩ := h2 ev hev
            show d + n ≤ b
            omega
      · obtain ⟨h1, h2, h3⟩ := ih (idx + 1) (d + n) lastLog mark
        refine ⟨by omega, ?_, h3⟩
        intro ev hev
        obtain ⟨ha, hb⟩ := h2 ev hev
        exact ⟨by omega, hb⟩

/-- Every sample the loop emits is a `"downloading"` sample. -/
theorem dlLoop_phases (total : ℕ) (tag : List Char) (start : ℚ) (clock : ℕ → ℚ) :
    ∀ (chunks : List ℕ) (idx d : ℕ) (lastLog mark : ℚ),
      ∀ ev ∈ (dlLoop total tag start clock chunks idx d lastLog mark).1,
        ev.1.phase = "downloading" := by
  intro chunks
  induction chunks with
  | nil => intro idx d lastLog mark ev hev; simp [dlLoop] at hev
  | cons n rest ih =>
    intro idx d lastLog mark ev hev
    unfold dlLoop at hev
    by_cases hn : n = 0
    · simp [hn] at hev
    · rw [if_neg hn] at hev
      dsimp only [] at hev
      split at hev
      · split at hev
        · rcases List.mem_cons.mp hev with hev | hev
          · subst hev; rfl
          · exact ih _ _ _ _ ev hev
        · rcases List.mem_cons.mp hev with hev | hev
          · subst hev; rfl
          · exact ih _ _ _ _ ev hev
      · exact ih _ _ _ _ ev hev

theorem getLast_map_cons_append (f : α → β) (x y : α) (xs : List α) :
    (List.map f (x :: xs.append [y])).getLast? = some (f y) := by
  have h : List.map f (x :: xs.append [y]) = (f x :: List.map f xs) ++ [f y] := by
    simp
  rw [h, List.getLast?_concat]

/-- **C6.** For any single invocation of `download_file_with_progress`
with a progress hook, the `downloaded` values carried by the emitted
samples are non-decreasing in emission order, and the final sample is the
`"done"` sample whose `downloaded` equals the total number of bytes
written to the destination file. -/
theorem claim_C6_progress_monotone (chunks : List ℕ) (total : ℕ) (clock : ℕ → ℚ)
    (label fname : List Char) :
    ((downloadSamples chunks total clock label fname).map Sample.downloaded).Pairwise
        (· ≤ ·) ∧
    ∃ s, (downloadSamples chunks total clock label fname).getLast? = some s ∧
      s.phase = "done" ∧
      s.downloaded = bytesWritten chunks total clock label fname := by
  unfold downloadSamples bytesWritten download_file_with_progress
  dsimp only []
  obtain ⟨h1, h2, h3⟩ := dlLoop_bounds total
    ((if label ≠ [] then label else if fname ≠ [] then fname else "download".data).take 48)
    (clock 0) clock chunks 1 0 0 (mkRat 1 10)
  constructor
  · rw [List.pairwise_map, List.pairwise_map]
    rw [List.pairwise_map] at h3
    refine List.Pairwise.cons (fun a' _ => Nat.zero_le _) ?_
    rw [List.append_eq, List.pairwise_append]
    refine ⟨h3, by simp, ?_⟩
    intro a ha b hb
    rw [List.mem_singleton] at hb
    subst hb
    obtain ⟨_, hle⟩ := h2 a ha
    exact hle
  · exact ⟨_, getLast_map_cons_append _ _ _ _, rfl, rfl⟩

/-! ## Claim C8 — speed and ETA formulas -/

/-- Every `"downloading"` sample of a known-size transfer carries, by
construction, the exact speed and ETA the source computes at its
emission time. -/
theorem dlLoop_c8 (total : ℕ) (tag : List Char) (start : ℚ) (clock : ℕ → ℚ)
    (htotal : 0 < total) :
    ∀ (chunks : List ℕ) (idx d : ℕ) (lastLog mark : ℚ),
      ∀ ev ∈ (dlLoop total tag start clock chunks idx d lastLog mark).1,
        ev.1.total_size = total ∧
        ev.1.speed = qdiv (ev.1.downloaded : ℚ) (max (mkRat 1 1000) (qsub ev.2 start)) ∧
        ev.1.eta = some (qdiv ((ev.1.total_size - ev.1.downloaded : ℕ) : ℚ)
          (max 1 ev.1.speed)) := by
  intro chunks
  induction chunks with
  | nil => intro idx d lastLog mark ev hev; simp [dlLoop] at hev
  | cons n rest ih =>
    intro idx d lastLog mark ev hev
    unfold dlLoop at hev
    by_cases hn : n = 0
    · simp [hn] at hev
    · rw [if_neg hn] at hev
      dsimp only [] at hev
      repeat' split at hev
      all_goals first
        | exact absurd htotal (by assumption)
        | exact ih _ _ _ _ ev hev
        | (rcases List.mem_cons.mp hev with hev | hev
           · subst hev
             exact ⟨rfl, rfl, rfl⟩
           · exact ih _ _ _ _ ev hev)

/-- **C8 (amended).** During a download with known content length, every
emitted `"downloading"` progress sample carries
`speed = downloaded / elapsed` where `elapsed = max(0.001, now − start)`
is the clamped time since the transfer started, and
`eta = remaining / max(1, speed)` with `remaining = total − downloaded` —
i.e. the ETA divides by the speed floored at one byte/second, not by the
raw speed. -/
theorem claim_C8_amended (chunks : List ℕ) (total : ℕ) (clock : ℕ → ℚ)
    (label fname : List Char) (htotal : 0 < total) :
    ∀ ev ∈ (download_file_with_progress chunks total clock label fname).1,
      ev.1.phase = "downloading" →
      ev.1.total_size = total ∧
      ev.1.speed = (ev.1.downloaded : ℚ) / max (1/1000) (ev.2 - clock 0) ∧
      ev.1.eta = some (((ev.1.total_size - ev.1.downloaded : ℕ) : ℚ)
        / max 1 ev.1.speed) := by
  intro ev hev hphase
  unfold download_file_with_progress at hev
  dsimp only [] at hev
  rcases List.mem_cons.mp hev with hev | hev
  · subst hev
    dsimp only [] at hphase
    exact absurd hphase (by decide)
  rcases List.mem_append.mp hev with hev | hev
  · obtain ⟨h1, h2, h3⟩ := dlLoop_c8 total _ (clock 0) clock htotal chunks 1 0 0
      (mkRat 1 10) ev hev
    refine ⟨h1, ?_, ?_⟩
    · rw [h2, qdiv_eq, qsub_eq]
      congr 1
      rw [show (mkRat 1 1000 : ℚ) = 1/1000 from by norm_num [Rat.mkRat_eq_div]]
    · rw [h3, qdiv_eq]
  · rw [List.mem_singleton] at hev
    subst hev
    dsimp only [] at hphase
    exact absurd hphase (by decide)

/-- A clock for the C8 counterexample: the transfer starts at t = 0 and the
single chunk arrives at t = 2 s. -/
def clk8 : ℕ → ℚ := fun k => if k = 0 then 0 else 2

/-- **C8 (counterexample).** The claim's formula `eta = remaining / speed`
fails even at positive speeds: downloading 1 of 21 bytes in 2 s gives
speed 0.5 B/s and remaining 20 B, and the emitted ETA is 20 s
(`remaining / max(1, speed)`), not the claimed 40 s. -/
theorem claim_C8_counterexample :
    ¬ (∀ (chunks : List ℕ) (total : ℕ) (clock : ℕ → ℚ) (label fname : List Char),
        ∀ ev ∈ (download_file_with_progress chunks total clock label fname).1,
          ev.1.phase = "downloading" → 0 < ev.1.speed →
          ev.1.eta = some (((ev.1.total_size - ev.1.downloaded : ℕ) : ℚ)
            / ev.1.speed)) := by
  intro h
  have hmem :
      (({ phase := "downloading", label := ['x'], downloaded := 1,
          total_size := 21, speed := mkRat 1 2, eta := some 20,
          pct := some (mkRat 100 21) }, (2 : ℚ)) : Sample × ℚ) ∈
        (download_file_with_progress [1] 21 clk8 ['x'] ['x']).1 := by decide
  have h2 := h [1] 21 clk8 ['x'] ['x'] _ hmem rfl (by decide)
  dsimp only [] at h2
  rw [Option.some_inj] at h2
  norm_num [Rat.mkRat_eq_div] at h2

/-- The `"downloading"` event emitted when 1 of 21 bytes has arrived at
t = 2 s under `clk8`. -/
def ev8 : Sample × ℚ :=
  ({ phase := "downloading", label := ['x'], downloaded := 1, total_size := 21,
     speed := mkRat 1 2, eta := some 20, pct := some (mkRat 100 21) }, 2)

/-- Witness for C8 (amended) on a concrete 21-byte transfer. -/
theorem claim_C8_amended_witness :
    ev8.1.total_size = 21 ∧
    ev8.1.speed = (ev8.1.downloaded : ℚ) / max (1/1000) (ev8.2 - clk8 0) ∧
    ev8.1.eta = some (((ev8.1.total_size - ev8.1.downloaded : ℕ) : ℚ)
      / max 1 ev8.1.speed) :=
  claim_C8_amended [1] 21 clk8 ['x'] ['x'] (by decide) ev8 (by decide) rfl

/-! ## Claim C7 — progress-slot phase sequences -/

theorem map_phase_attempt (s d : Sample) (t1 t2 : ℚ) (evs : List (Sample × ℚ))
    (hs : s.phase = "start") (hd : d.phase = "done")
    (h : ∀ ev ∈ evs, ev.1.phase = "downloading") :
    (((s, t1) :: evs ++ [(d, t2)]).map Prod.fst).map Sample.phase
      = attemptPhases true evs.length := by
  have hrep : evs.map (Sample.phase ∘ Prod.fst)
      = List.replicate evs.length "downloading" := by
    rw [show evs.length = (evs.map (Sample.phase ∘ Prod.fst)).length from
      (List.length_map _ _).symm]
    exact List.eq_replicate_length.mpr fun b hb => by
      obtain ⟨ev, hev, rfl⟩ := List.mem_map.mp hb
      exact h ev hev
  simp only [List.map_cons, List.map_append, List.map_nil, List.map_map, hs, hd,
    attemptPhases, if_pos rfl, if_true, hrep, List.cons_append]

/-- Link between the hook model and the download routine: the phase
projection of one successful invocation's samples is exactly
`attemptPhases true k` for some count `k` of emitted throttled updates. -/
theorem downloadSamples_phases (chunks : List ℕ) (total : ℕ) (clock : ℕ → ℚ)
    (label fname : List Char) :
    ∃ k, (downloadSamples chunks total clock label fname).map Sample.phase
      = attemptPhases true k := by
  unfold downloadSamples download_file_with_progress
  dsimp only []
  exact ⟨_, map_phase_attempt _ _ _ _ _ rfl rfl
    (dlLoop_phases total _ (clock 0) clock chunks 1 0 0 (mkRat 1 10))⟩

/-- The hook samples of a failed attempt carry only the phases `"start"`
and `"downloading"`. -/
theorem attemptPhases_false_mem (k : ℕ) :
    ∀ p ∈ attemptPhases false k, p = "start" ∨ p = "downloading" := by
  intro p hp
  simp only [attemptPhases, Bool.false_eq_true, if_false, List.append_nil,
    List.mem_cons, List.mem_replicate] at hp
  rcases hp with h | ⟨_, h⟩
  · exact Or.inl h
  · exact Or.inr h

/-- With no successful final attempt, the hook records only `"start"` and
`"downloading"`. -/
theorem taskHookPhases_none_mem (failures : List ℕ) :
    ∀ p ∈ taskHookPhases failures none, p = "start" ∨ p = "downloading" := by
  intro p hp
  simp only [taskHookPhases, List.append_nil, List.mem_flatten, List.mem_map] at hp
  obtain ⟨l, ⟨kk, hk, rfl⟩, hpl⟩ := hp
  exact attemptPhases_false_mem kk p hpl

theorem chain2 (n : ℕ) :
    List.Chain' (· ≤ ·) ((2 : ℕ) :: (List.replicate n 2 ++ [3, 3])) := by
  induction n with
  | zero =>
    simp only [List.replicate_zero, List.nil_append]
    exact List.Chain'.cons (by norm_num)
      (List.Chain'.cons (by norm_num) (List.chain'_singleton _))
  | succ m ih =>
    rw [List.replicate_succ]
    exact List.Chain'.cons le_rfl ih

/-- **C7 (counterexample).** Even the simplest successful task records the
phase `"start"` in its slot — the code never emits `"resolving"`, so the
claimed phase alphabet `{queued, resolving, downloading, done, failed}` is
wrong. -/
theorem claim_C7_counterexample :
    ¬ (∀ p ∈ slotPhases [] (some 1),
        p ∈ ["queued", "resolving", "downloading", "done", "failed"]) := by
  decide

/-- **C7 (amended).** Every phase recorded in a task's progress slot — the
initial `"queued"`, the hook samples of the failed download attempts, the
hook samples of the final successful attempt if any, and the batch's
terminal write — lies in `{queued, start, downloading, done, failed}`
(the code emits `"start"`, not `"resolving"`). When no download attempt
fails the sequence is monotone along
`queued → start → downloading → done/failed`; in general a retry regresses
the slot from `"downloading"` back to `"start"`, but the slot never leaves
a terminal phase: the sequence ends in a non-empty constant run of the
terminal value matching the outcome, and no terminal phase occurs before
that run. -/
theorem claim_C7_amended (failures : List ℕ) (finalk : Option ℕ) :
    (∀ p ∈ slotPhases failures finalk,
        p ∈ ["queued", "start", "downloading", "done", "failed"]) ∧
    (failures = [] →
        ((slotPhases failures finalk).map phaseRank).Pairwise (· ≤ ·)) ∧
    (∃ pre k, slotPhases failures finalk
        = pre ++ List.replicate k (if finalk.isSome then "done" else "failed") ∧
      0 < k ∧ ∀ p ∈ pre, p ≠ "done" ∧ p ≠ "failed") := by
  refine ⟨?_, ?_, ?_⟩
  · intro p hp
    simp only [slotPhases] at hp
    rcases List.mem_cons.mp hp with rfl | hp
    · decide
    rcases List.mem_append.mp hp with hp | hp
    · simp only [taskHookPhases, List.mem_append, List.mem_flatten, List.mem_map] at hp
      rcases hp with ⟨l, ⟨kk, hk, rfl⟩, hpl⟩ | hp
      · rcases attemptPhases_false_mem kk p hpl with rfl | rfl <;> decide
      · cases finalk with
        | some k =>
          simp only [attemptPhases, if_pos rfl, if_true, List.mem_cons, List.mem_append,
            List.mem_replicate, List.mem_singleton] at hp
          rcases hp with rfl | ⟨_, rfl⟩ | rfl | h
          · decide
          · decide
          · decide
          · simp at h
        | none => simp at hp
    · rw [List.mem_singleton] at hp
      subst hp
      split <;> decide
  · rintro rfl
    cases finalk with
    | none => decide
    | some k =>
      have hmap : (slotPhases [] (some k)).map phaseRank
          = 0 :: 1 :: (List.replicate k 2 ++ [3, 3]) := by
        simp only [slotPhases, taskHookPhases, attemptPhases, List.map_nil,
          List.flatten_nil, List.nil_append, if_pos rfl, Option.isSome_some,
          List.map_cons, List.map_append, List.map_replicate, List.map_nil,
          List.append_assoc, List.singleton_append, List.cons_append]
        rfl
      rw [hmap, ← List.chain'_iff_pairwise]
      cases k with
      | zero =>
        simp only [List.replicate_zero, List.nil_append]
        exact List.Chain'.cons (by norm_num) (List.Chain'.cons (by norm_num)
          (List.Chain'.cons (by norm_num) (List.chain'_singleton _)))
      | succ n =>
        rw [List.replicate_succ]
        exact List.Chain'.cons (by norm_num)
          (List.Chain'.cons (by norm_num) (chain2 n))
  · cases finalk with
    | none =>
      refine ⟨"queued" :: taskHookPhases failures none, 1, ?_, one_pos, ?_⟩
      · simp [slotPhases, List.replicate]
      · intro p hp
        rcases List.mem_cons.mp hp with rfl | hp
        · exact ⟨by decide, by decide⟩
        · rcases taskHookPhases_none_mem failures p hp with rfl | rfl <;>
            exact ⟨by decide, by decide⟩
    | some k =>
      refine ⟨"queued" :: ((failures.map fun kk => attemptPhases false kk).flatten
        ++ ("start" :: List.replicate k "downloading")), 2, ?_, two_pos, ?_⟩
      · simp only [slotPhases, taskHookPhases, attemptPhases, if_pos rfl, if_true,
          Option.isSome_some, List.replicate_succ, List.replicate_zero,
          List.append_assoc, List.cons_append, List.singleton_append,
          List.nil_append, List.append_nil]
      · intro p hp
        rcases List.mem_cons.mp hp with rfl | hp
        · exact ⟨by decide, by decide⟩
        rcases List.mem_append.mp hp with hp | hp
        · obtain ⟨l, hl, hpl⟩ := List.mem_flatten.mp hp
          obtain ⟨kk, hk, rfl⟩ := List.mem_map.mp hl
          rcases attemptPhases_false_mem kk p hpl with rfl | rfl <;>
            exact ⟨by decide, by decide⟩
        rcases List.mem_cons.mp hp with rfl | hp
        · exact ⟨by decide, by decide⟩
        · rcases List.mem_replicate.mp hp with ⟨_, rfl⟩
          exact ⟨by decide, by decide⟩

/-- Witness for C7 (amended) on the simplest successful task. -/
theorem claim_C7_amended_witness :
    (∀ p ∈ slotPhases [] (some 1),
        p ∈ ["queued", "start", "downloading", "done", "failed"]) ∧
    ((slotPhases [] (some 1)).map phaseRank).Pairwise (· ≤ ·) ∧
    (∃ pre k, slotPhases [] (some 1) = pre ++ List.replicate k "done" ∧
      0 < k ∧ ∀ p ∈ pre, p ≠ "done" ∧ p ≠ "failed") := by
  obtain ⟨h1, h2, pre, k, h3, hk, h4⟩ := claim_C7_amended [] (some 1)
  exact ⟨h1, h2 rfl, pre, k, h3, hk, h4⟩

/-! ## Claim C4 — direct-URL extraction Rule A -/

/-- Every pattern group starts with the alternatives of `(?:https?:)?//`:
an explicit scheme (kept in original case, matched case-insensitively) or
a protocol-relative `//`. -/
def schemeShape (g : List Char) : Prop :=
  ciStartsWith "http://".data g = true ∨ ciStartsWith "https://".data g = true ∨
    g.take 2 = ['/', '/']

theorem ciStartsWith_take_append (p : List Char) :
    ∀ (s t : List Char), ciStartsWith p s = true →
      ciStartsWith p (s.take p.length ++ t) = true := by
  induction p with
  | nil => intro s t _; rfl
  | cons x xs ih =>
    intro s t h
    cases s with
    | nil => exact absurd h (by simp [ciStartsWith])
    | cons c cs =>
      simp only [ciStartsWith, Bool.and_eq_true] at h
      simp only [List.length_cons, List.take_succ_cons, List.cons_append, ciStartsWith,
        Bool.and_eq_true]
      exact ⟨h.1, ih cs t h.2⟩

theorem parseScheme_shape (s pre rest t : List Char)
    (h : parseScheme s = some (pre, rest)) : schemeShape (pre ++ t) := by
  unfold parseScheme at h
  repeat' split at h
  · rw [Option.some_inj, Prod.mk.injEq] at h
    obtain ⟨h1, _⟩ := h
    subst h1
    exact Or.inr (Or.inl (ciStartsWith_take_append "https://".data s t (by assumption)))
  · rw [Option.some_inj, Prod.mk.injEq] at h
    obtain ⟨h1, _⟩ := h
    subst h1
    exact Or.inl (ciStartsWith_take_append "http://".data s t (by assumption))
  · rw [Option.some_inj, Prod.mk.injEq] at h
    obtain ⟨h1, _⟩ := h
    subst h1
    rw [show List.take 2 s = ['/', '/'] from by assumption]
    exact Or.inr (Or.inr rfl)
  · exact absurd h (by simp)

theorem gatewayScan_shape (q : Char) (pre : List Char) :
    ∀ (l acc g : List Char), gatewayScan q pre acc l = some g → ∃ t, g = pre ++ t := by
  intro l
  induction l with
  | nil => intro acc g h; simp [gatewayScan] at h
  | cons c cs ih =>
    intro acc g h
    unfold gatewayScan at h
    split at h
    · rw [Option.some_inj] at h
      exact ⟨acc.reverse ++ _, by rw [← h, List.append_assoc]⟩
    · split at h
      · exact ih _ g h
      · simp at h

theorem matchGatewayAt_shape (q : Char) (s g : List Char)
    (h : matchGatewayAt q s = some g) : schemeShape g := by
  unfold matchGatewayAt at h
  repeat' (first
    | split at h
    | (dsimp only [] at h; split at h))
  all_goals first
    | (simp at h; done)
    | (obtain ⟨t, rfl⟩ := gatewayScan_shape q _ _ _ g h
       exact parseScheme_shape _ _ _ _ (by assumption))

theorem matchZipAt_shape (q : Char) (s g : List Char)
    (h : matchZipAt q s = some g) : schemeShape g := by
  unfold matchZipAt at h
  repeat' (first
    | split at h
    | (dsimp only [] at h; split at h))
  all_goals first
    | (simp at h; done)
    | ((try rw [Option.some_inj] at h)
       subst h
       exact parseScheme_shape _ _ _ _ (by assumption))

theorem matchRedirectAt_shape (s g : List Char)
    (h : matchRedirectAt s = some g) : schemeShape g := by
  unfold matchRedirectAt at h
  repeat' (first
    | split at h
    | (dsimp only [] at h; split at h))
  all_goals first
    | (simp at h; done)
    | ((try rw [Option.some_inj] at h)
       subst h
       exact parseScheme_shape _ _ _ _ (by assumption))

theorem reSearch_some (f : List Char → Option (List Char)) :
    ∀ (s g : List Char), reSearch f s = some g → ∃ pos, f pos = some g := by
  intro s
  induction s with
  | nil => intro g h; exact ⟨[], h⟩
  | cons c cs ih =>
    intro g h
    unfold reSearch at h
    split at h
    · rw [Option.some_inj] at h
      subst h
      exact ⟨c :: cs, by assumption⟩
    · exact ih g h

theorem first_match_shape_aux (text : List Char) :
    ∀ (ps : List (List Char → Option (List Char))),
      (∀ f ∈ ps, ∀ pos g, f pos = some g → schemeShape g) →
      ∀ g, first_match text ps = some g → schemeShape g := by
  intro ps
  induction ps with
  | nil => intro _ g h; simp [first_match] at h
  | cons p rest ih =>
    intro hps g h
    unfold first_match at h
    split at h
    · rw [Option.some_inj] at h
      subst h
      obtain ⟨pos, hpos⟩ := reSearch_some p text _ (by assumption)
      exact hps p (List.mem_cons_self _ _) pos _ hpos
    · exact ih (fun f hf => hps f (List.mem_cons_of_mem _ hf)) g h

theorem first_match_shape (text g : List Char)
    (h : first_match text directUrlPatterns = some g) : schemeShape g := by
  refine first_match_shape_aux text directUrlPatterns ?_ g h
  intro f hf
  simp only [directUrlPatterns, List.mem_cons, List.not_mem_nil, or_false] at hf
  rcases hf with rfl | rfl | rfl | rfl | rfl
  · exact fun pos g => matchGatewayAt_shape '"' pos g
  · exact fun pos g => matchGatewayAt_shape '\'' pos g
  · exact fun pos g => matchZipAt_shape '"' pos g
  · exact fun pos g => matchZipAt_shape '\'' pos g
  · exact fun pos g => matchRedirectAt_shape pos g

theorem take_two_slashes (u : List Char) (h : u.take 2 = ['/', '/']) :
    ∃ us, u = '/' :: '/' :: us := by
  cases u with
  | nil => simp at h
  | cons a u1 =>
    cases u1 with
    | nil => simp at h
    | cons b u2 =>
      simp only [List.take_succ_cons, List.take, List.cons.injEq] at h
      obtain ⟨rfl, rfl, _⟩ := h
      exact ⟨u2, rfl⟩

theorem ciStartsWith_https_slashes (us : List Char) :
    ciStartsWith "https://".data ("https:".data ++ '/' :: '/' :: us) = true := rfl

theorem normalize_direct_url_some (g : List Char) :
    normalize_direct_url (some g) =
      if g.isEmpty = true then none
      else if containsModsbaseZipHtml
          (if g.take 2 = ['/', '/'] then "https:".data ++ g else g) = true then none
      else some (if g.take 2 = ['/', '/'] then "https:".data ++ g else g) := rfl

/-- **C4.** Rule A (`parse_direct_url`): any returned URL carries an
explicit scheme — a case-variant of `http://`/`https://` kept from the
document, or `https://` prepended to a protocol-relative `//` link — and
never matches the `.html`-wrapped modsbase confirmation-page pattern that
`normalize_direct_url` rejects; the five patterns are tried in source
order (gateway double- then single-quoted, archive-extension double- then
single-quoted, client-side redirect) with the first match winning; a
protocol-relative group is returned with `https:` prepended. -/
theorem claim_C4_direct_url (htmlText : List Char) :
    (∀ u, parse_direct_url htmlText = some u →
        (ciStartsWith "http://".data u = true ∨ ciStartsWith "https://".data u = true) ∧
        containsModsbaseZipHtml u = false) ∧
    (∀ g, reSearch (matchGatewayAt '"') htmlText = some g →
        parse_direct_url htmlText = normalize_direct_url (some g)) ∧
    (reSearch (matchGatewayAt '"') htmlText = none →
      reSearch (matchGatewayAt '\'') htmlText = none →
      ∀ g, reSearch (matchZipAt '"') htmlText = some g →
        parse_direct_url htmlText = normalize_direct_url (some g)) ∧
    (reSearch (matchGatewayAt '"') htmlText = none →
      reSearch (matchGatewayAt '\'') htmlText = none →
      reSearch (matchZipAt '"') htmlText = none →
      reSearch (matchZipAt '\'') htmlText = none →
      parse_direct_url htmlText
        = normalize_direct_url (reSearch matchRedirectAt htmlText)) ∧
    (∀ u, first_match htmlText directUrlPatterns = some u → u.take 2 = ['/', '/'] →
      containsModsbaseZipHtml ("https:".data ++ u) = false →
      parse_direct_url htmlText = some ("https:".data ++ u)) := by
  refine ⟨?_, ?_, ?_, ?_, ?_⟩
  · intro u hu
    unfold parse_direct_url at hu
    cases hfm : first_match htmlText directUrlPatterns with
    | none => rw [hfm] at hu; exact absurd hu (by simp [normalize_direct_url])
    | some g =>
      rw [hfm] at hu
      have hshape := first_match_shape htmlText g hfm
      rw [normalize_direct_url_some] at hu
      by_cases hemp : g.isEmpty = true
      · rw [if_pos hemp] at hu; exact absurd hu (by simp)
      rw [if_neg hemp] at hu
      by_cases h2 : g.take 2 = ['/', '/']
      · rw [if_pos h2] at hu
        by_cases hmb : containsModsbaseZipHtml ("https:".data ++ g) = true
        · rw [if_pos hmb] at hu; exact absurd hu (by simp)
        · rw [if_neg hmb] at hu
          rw [Option.some_inj] at hu
          subst hu
          obtain ⟨us, rfl⟩ := take_two_slashes g h2
          exact ⟨Or.inr (ciStartsWith_https_slashes us),
            Bool.not_eq_true _ |>.mp hmb⟩
      · rw [if_neg h2] at hu
        by_cases hmb : containsModsbaseZipHtml g = true
        · rw [if_pos hmb] at hu; exact absurd hu (by simp)
        · rw [if_neg hmb] at hu
          rw [Option.some_inj] at hu
          subst hu
          refine ⟨?_, Bool.not_eq_true _ |>.mp hmb⟩
          rcases hshape with hs | hs | hs
          · exact Or.inl hs
          · exact Or.inr hs
          · exact absurd hs h2
  · intro g hg
    unfold parse_direct_url
    simp only [directUrlPatterns, first_match, hg]
  · intro h1 h2 g hg
    unfold parse_direct_url
    simp only [directUrlPatterns, first_match, h1, h2, hg]
  · intro h1 h2 h3 h4
    unfold parse_direct_url
    cases hr : reSearch matchRedirectAt htmlText with
    | none => simp only [directUrlPatterns, first_match, h1, h2, h3, h4, hr]
    | some r => simp only [directUrlPatterns, first_match, h1, h2, h3, h4, hr]
  · intro u hu h2 hmb
    unfold parse_direct_url
    rw [hu, normalize_direct_url_some]
    obtain ⟨us, rfl⟩ := take_two_slashes u h2
    rw [if_neg (by simp : ¬(('/' :: '/' :: us : List Char)).isEmpty = true)]
    rw [if_pos h2, if_neg (by rw [hmb]; exact Bool.false_ne_true)]

/-- A document containing both a modsbase confirmation-page link (rejected
by the archive-extension lookahead) and a client-side redirect to the real
protocol-relative archive URL. -/
def doc4 : List Char :=
  "href=\"https://modsbase.com/files/abc.zip.html\" window.open( \"//cdn.example.com/real.zip\" )".data

/-- Witness for C4 on `doc4`: the extractor skips the `.zip.html`
confirmation link, takes the redirect's protocol-relative URL, and returns
it with an explicit scheme and free of the confirmation-page pattern. -/
theorem claim_C4_direct_url_witness :
    parse_direct_url doc4 = some ("https:".data ++ "//cdn.example.com/real.zip".data) ∧
    (ciStartsWith "http://".data ("https:".data ++ "//cdn.example.com/real.zip".data) = true ∨
     ciStartsWith "https://".data ("https:".data ++ "//cdn.example.com/real.zip".data) = true) ∧
    containsModsbaseZipHtml ("https:".data ++ "//cdn.example.com/real.zip".data) = false := by
  have h := (claim_C4_direct_url doc4).2.2.2.2 "//cdn.example.com/real.zip".data
    (by decide) (by decide) (by decide)
  have ha := (claim_C4_direct_url doc4).1 _ h
  exact ⟨h, ha.1, ha.2⟩

end Workshop
